import Mathlib

/-!
Verification of the rename/merge engine of the obsidian-unique-attachments
plugin (src/main.ts).  The plugin content-addresses attachment files by a
hash of their bytes, renames each attachment to its hash, and rewrites the
markdown and canvas documents that reference it.

The vault, its documents and the storage layer are modelled as explicit
state; the stateful engine methods of src/main.ts become state-passing
functions that additionally return a log of observable events (renames,
deletes, reference rewrites, console warnings/errors, notices).
Storage failures (vault.rename / vault.delete throwing) are modelled by a
failure oracle supplied as input.

The repository modules that main.ts imports but that are not part of the
provided source (src/path.ts, src/md5/md5.ts, src/links-handler.ts,
src/settings.ts) are modelled from the spec; each such definition carries a
doc comment saying so.
-/

set_option maxRecDepth 20000

/-- JS String.prototype.startsWith (case-sensitive, raw character match),
modelled on the character list of the string. -/
def strStarts (s pat : String) : Bool := pat.data.isPrefixOf s.data

/-- JS String.prototype.endsWith (case-sensitive, raw character match),
modelled on the character list of the string. -/
def strEnds (s pat : String) : Bool := pat.data.isSuffixOf s.data

/-- Modelled from the spec: the filename component of a path (everything
after the last forward slash).  Part of the Path/Name Utility (src/path.ts,
not included under src/). -/
def fileNamePart (cs : List Char) : List Char :=
  (cs.reverse.takeWhile (fun c => !(c == '/'))).reverse

/-- Modelled from the spec: the directory component of a path, up to and
including the last forward slash.  Part of the Path/Name Utility
(src/path.ts, not included under src/). -/
def dirPart (cs : List Char) : List Char :=
  (cs.reverse.dropWhile (fun c => !(c == '/'))).reverse

/-- Modelled from the spec: the extension of a path, from the last dot of
its filename component (inclusive), or empty when the filename has no dot.
Part of the Path/Name Utility (src/path.ts, not included under src/). -/
def extPart (cs : List Char) : List Char :=
  let fn := fileNamePart cs
  let r := fn.reverse.takeWhile (fun c => !(c == '.'))
  if r.length == fn.length then [] else '.' :: r.reverse

/-- Modelled from the spec: path.extname. -/
def extname (p : String) : String := String.mk (extPart p.data)

/-- Modelled from the spec: path.basename(p, ext) - the filename component
of the path with the suffix ext stripped when present. -/
def basename (p ext : String) : String :=
  let fn := fileNamePart p.data
  if !ext.data.isEmpty && ext.data.isSuffixOf fn then
    String.mk (fn.take (fn.length - ext.data.length))
  else String.mk fn

/-- The base name of a path as computed in renameAttachmentIfNeeded:
basename of the path with its own extension stripped (src/main.ts lines
79-80). -/
def baseNameOf (p : String) : String := basename p (extname p)

/-- Modelled from the spec: LinksHandler.getFilePathWithRenamedBaseName
(src/links-handler.ts, not included under src/) - replace the filename stem,
keeping directory and extension. -/
def getFilePathWithRenamedBaseName (p newBase : String) : String :=
  String.mk (dirPart p.data ++ newBase.data ++ extPart p.data)

/-- The sixteen lowercase hexadecimal digit characters. -/
def hexChars : List Char := "0123456789abcdef".data

/-- The hexadecimal digit character for a value below 16. -/
def hexDigit (n : Nat) : Char := hexChars.getD n '0'

/-- Modelled from the spec: the Content Hasher (src/md5/md5.ts, not included
under src/) - a fixed-length (32 hex characters) digest string computed as a
pure function of the full byte sequence, with no dependence on path,
metadata or run. -/
def fingerprint (bytes : List Nat) : String :=
  let h := bytes.foldl (fun a b => (a * 257 + b % 256 + 1) % (2 ^ 128)) 0
  String.mk ((List.range 32).map (fun i => hexDigit (h / 16 ^ (31 - i) % 16)))

/-- The plugin settings (src/settings.ts is not included under src/; the
fields are the ones main.ts reads). -/
structure PluginSettings where
  ignoreFolders : List String
  renameFileTypes : List String
  renameOnlyLinkedAttachments : Bool
  mergeTheSameAttachments : Bool
deriving DecidableEq, Repr

/-- A non-document file of the vault (an attachment candidate): its path and
its byte content. -/
structure VFile where
  path : String
  content : List Nat
deriving DecidableEq, Repr

/-- A referencing document of the vault (markdown or canvas, distinguished
by its path suffix), abstracted to its resolved reference targets.  The
malformed flag records a canvas whose JSON content fails to parse. -/
structure Doc where
  path : String
  malformed : Bool
  refs : List String
deriving DecidableEq, Repr

/-- The vault state: the candidate attachment files and the referencing
documents. -/
structure Vault where
  files : List VFile
  docs : List Doc
deriving DecidableEq, Repr

/-- The storage failure oracle: whether vault.rename / vault.delete throws
for a given source path during the run. -/
structure StorageOracle where
  renameFails : String → Bool
  deleteFails : String → Bool

/-- Observable events of a run: vault mutations, console warnings/errors
(each recording exactly the paths interpolated into the logged message), and
notices. -/
inductive Event where
  | renamed (oldPath newPath : String)
  | deleted (p : String)
  | rewrote (note oldPath newPath : String)
  | warnClash (oldPath newPath : String)
  | warnDup (oldPath newPath : String)
  | errRename (oldPath newPath : String)
  | errDelete (p : String)
  | errParse (doc : String)
  | noticeNone
  | noticeRenamed (n : Nat)
deriving DecidableEq, Repr

/-- The paths interpolated into the console message logged for an event
(src/main.ts lines 104, 109, 116, 136). -/
def eventPaths : Event → List String
  | .renamed a b => [a, b]
  | .deleted a => [a]
  | .rewrote n a b => [n, a, b]
  | .warnClash a b => [a, b]
  | .warnDup a b => [a, b]
  | .errRename a b => [a, b]
  | .errDelete a => [a]
  | .errParse d => [d]
  | .noticeNone => []
  | .noticeRenamed _ => []

/-- Events that mutate the vault (rename, delete, reference rewrite). -/
def isMutationEvent : Event → Bool
  | .renamed _ _ => true
  | .deleted _ => true
  | .rewrote _ _ _ => true
  | _ => false

/-- Events marking a successful action (a rename or a merge delete). -/
def isActionEvent : Event → Bool
  | .renamed _ _ => true
  | .deleted _ => true
  | _ => false

/-- The note path of a reference-rewrite event, if any. -/
def rewroteNote : Event → Option String
  | .rewrote n _ _ => some n
  | _ => none

/-- checkFilePathIsIgnored (src/main.ts lines 262-268): some configured
ignore folder is a raw prefix of the path. -/
def checkFilePathIsIgnored (cfg : PluginSettings) (filePath : String) : Bool :=
  cfg.ignoreFolders.any (fun folder => strStarts filePath folder)

/-- checkFileTypeIsAllowed (src/main.ts lines 270-276): the path ends with a
dot followed by some configured extension. -/
def checkFileTypeIsAllowed (cfg : PluginSettings) (filePath : String) : Bool :=
  cfg.renameFileTypes.any (fun e => strEnds filePath ("." ++ e))

/-- Look a file up by path (vault.getAbstractFileByPath / adapter.exists over
the candidate files). -/
def findFile (st : Vault) (p : String) : Option VFile :=
  st.files.find? (fun f => f.path == p)

/-- generateValidBaseName (src/main.ts lines 278-291): read the file's bytes
and hash them.  Returns none when no file exists at the path (the source
would throw). -/
def generateValidBaseName (st : Vault) (p : String) : Option String :=
  (findFile st p).map (fun f => fingerprint f.content)

/-- Modelled from the spec: LinksHandler.getNotesThatHaveLinkToFile
(src/links-handler.ts, not included under src/) - the markdown documents
whose resolved links include the path. -/
def mdLookup (docs : List Doc) (p : String) : List String :=
  (docs.filter (fun d => !(strEnds d.path ".canvas") && d.refs.contains p)).map Doc.path

/-- The markdown-referencers lookup over the vault's documents. -/
def getNotesThatHaveLinkToFile (st : Vault) (p : String) : List String :=
  mdLookup st.docs p

/-- Modelled from the spec: LinksHandler.getNotesThatHaveLinkToFileInCanvas
(src/links-handler.ts, not included under src/) - the canvas documents whose
file nodes resolve to the path.  A canvas whose JSON fails to parse is
skipped for the operation and reported via the error log; it never aborts
the scan of other documents. -/
def canvasLookup : List Doc → String → List String × List Event
  | [], _ => ([], [])
  | d :: ds, p =>
    let rest := canvasLookup ds p
    if strEnds d.path ".canvas" then
      if d.malformed then (rest.1, Event.errParse d.path :: rest.2)
      else if d.refs.contains p then (d.path :: rest.1, rest.2)
      else rest
    else rest

/-- The canvas-referencers lookup over the vault's documents. -/
def getNotesThatHaveLinkToFileInCanvas (st : Vault) (p : String) : List String × List Event :=
  canvasLookup st.docs p

/-- JS Set insertion-order deduplication, as in
[...new Set([...mdNotes, ...canvasNotes])] (src/main.ts line 89). -/
def setDedup (xs : List String) : List String :=
  xs.foldl (fun acc x => if acc.contains x then acc else acc ++ [x]) []

/-- The deduplicated union of markdown and canvas referencers of a path
over a document list (src/main.ts lines 87-89). -/
def allNotesDocs (docs : List Doc) (p : String) : List String :=
  setDedup (mdLookup docs p ++ (canvasLookup docs p).1)

/-- The deduplicated union of markdown and canvas referencers of a path
(src/main.ts lines 87-89). -/
def allNotesFor (st : Vault) (p : String) : List String :=
  allNotesDocs st.docs p

/-- Substitute one reference target for another. -/
def substRef (oldPath newPath r : String) : String :=
  if r == oldPath then newPath else r

/-- A document with every reference to oldPath replaced by newPath. -/
def rewriteDoc (oldPath newPath : String) (d : Doc) : Doc :=
  { d with refs := d.refs.map (substRef oldPath newPath) }

/-- Modelled from the spec: LinksHandler.updateChangedPathInNote
(src/links-handler.ts, not included under src/) - rewrite every reference to
oldPath inside one markdown document to newPath. -/
def updateChangedPathInNote (st : Vault) (note oldPath newPath : String) : Vault :=
  { st with docs := st.docs.map (fun d => if d.path == note then rewriteDoc oldPath newPath d else d) }

/-- Modelled from the spec: LinksHandler.updateChangedPathInCanvas
(src/links-handler.ts, not included under src/) - rewrite every file node
referencing oldPath inside one canvas document to newPath; a canvas whose
JSON fails to parse is skipped. -/
def updateChangedPathInCanvas (st : Vault) (note oldPath newPath : String) : Vault :=
  { st with docs := st.docs.map (fun d =>
      if d.path == note then (if d.malformed then d else rewriteDoc oldPath newPath d) else d) }

/-- The reference-update sweep over the referencing notes (src/main.ts lines
121-129 and 141-149): canvas notes via updateChangedPathInCanvas, markdown
notes via updateChangedPathInNote, in note order. -/
def updateNotes (st : Vault) (notes : List String) (oldPath newPath : String) : Vault :=
  notes.foldl (fun s n =>
    if strEnds n ".canvas" then updateChangedPathInCanvas s n oldPath newPath
    else updateChangedPathInNote s n oldPath newPath) st

/-- The rewrite events of the reference-update sweep, one per note. -/
def rewriteEvents (notes : List String) (oldPath newPath : String) : List Event :=
  notes.map (fun n => Event.rewrote n oldPath newPath)

/-- vault.rename(file, validPath): move the file at the path to the new
path. -/
def renameFile (st : Vault) (p newPath : String) : Vault :=
  { st with files := st.files.map (fun f => if f.path == p then { f with path := newPath } else f) }

/-- vault.delete(file): remove the file at the path. -/
def deleteFile (st : Vault) (p : String) : Vault :=
  { st with files := st.files.filter (fun f => !(f.path == p)) }

/-- The candidate canonical path of a file: its path with the stem replaced
by the content fingerprint. -/
def vpOf (p : String) (f : VFile) : String :=
  getFilePathWithRenamedBaseName p (fingerprint f.content)

/-- renameAttachmentIfNeeded (src/main.ts lines 73-155), as a function from
the vault state and the attachment path to the returned boolean, the
successor state and the event log.  Storage failures come from the oracle; a
failing call mutates nothing. -/
def renameAttachmentIfNeeded (cfg : PluginSettings) (ok : StorageOracle)
    (st : Vault) (filePath : String) : Bool × Vault × List Event :=
  if checkFilePathIsIgnored cfg filePath || !checkFileTypeIsAllowed cfg filePath then
    (false, st, [])
  else
    match findFile st filePath with
    | none => (false, st, [])
    | some file =>
      let validBaseName := fingerprint file.content
      if baseNameOf filePath == validBaseName then (false, st, [])
      else
        let pes := (getNotesThatHaveLinkToFileInCanvas st filePath).2
        let allNotes := allNotesFor st filePath
        if allNotes.isEmpty && cfg.renameOnlyLinkedAttachments then (false, st, pes)
        else
          let validPath := getFilePathWithRenamedBaseName filePath validBaseName
          match findFile st validPath with
          | some other =>
            if fingerprint other.content != validBaseName then
              (false, st, pes ++ [Event.warnClash filePath validPath])
            else if !cfg.mergeTheSameAttachments then
              (false, st, pes ++ [Event.warnDup filePath validPath])
            else if ok.deleteFails filePath then
              (false, st, pes ++ [Event.errDelete filePath])
            else
              (true, updateNotes (deleteFile st filePath) allNotes filePath validPath,
                pes ++ Event.deleted filePath :: rewriteEvents allNotes filePath validPath)
          | none =>
            if ok.renameFails filePath then
              (false, st, pes ++ [Event.errRename filePath validPath])
            else
              (true, updateNotes (renameFile st filePath validPath) allNotes filePath validPath,
                pes ++ Event.renamed filePath validPath :: rewriteEvents allNotes filePath validPath)

/-- The paths of the vault's candidate files. -/
def pathsOf (st : Vault) : List String := st.files.map VFile.path

/-- The batch loop of renameAllAttachments (src/main.ts lines 35-39):
process each path in order, accumulating the count of successful actions,
the evolving state and the event log. -/
def runPaths (cfg : PluginSettings) (ok : StorageOracle) :
    Vault → List String → Nat × Vault × List Event
  | st, [] => (0, st, [])
  | st, p :: ps =>
    let r := renameAttachmentIfNeeded cfg ok st p
    let rest := runPaths cfg ok r.2.1 ps
    ((if r.1 then 1 else 0) + rest.1, rest.2.1, r.2.2 ++ rest.2.2)

/-- renameAllAttachments (src/main.ts lines 31-47): run the batch over every
vault file and report the aggregate count (the zero-count notice is the
"No files found that need to be renamed" message). -/
def renameAllAttachments (cfg : PluginSettings) (ok : StorageOracle) (st : Vault) :
    Nat × Vault × List Event :=
  let r := runPaths cfg ok st (pathsOf st)
  (r.1, r.2.1, r.2.2 ++ [if r.1 == 0 then Event.noticeNone else Event.noticeRenamed r.1])

/-- A canvas node as read by renameAttachmentsForActiveMD: its type tag and
its optional file field. -/
structure CanvasNode where
  nodeType : String
  file : Option String
deriving DecidableEq, Repr

/-- The content of the active canvas file: either JSON that fails to parse
(JSON.parse throws) or the parsed node list. -/
inductive CanvasContent where
  | malformed
  | parsed (nodes : List CanvasNode)
deriving DecidableEq, Repr

/-- The active file handed to renameAttachmentsForActiveMD: a markdown file
with its resolved-link targets (from the metadata cache collaborator), or a
canvas file with its content. -/
inductive ActiveFile where
  | md (path : String) (resolvedLinks : List String)
  | canvas (path : String) (content : CanvasContent)
deriving DecidableEq, Repr

/-- Modelled from the spec: LinksHandler.getFullPathForLink
(src/links-handler.ts, not included under src/) - resolve a link target
against the containing document's directory, treating a leading slash as
vault-root-absolute. -/
def getFullPathForLink (link notePath : String) : String :=
  if strStarts link "/" then String.mk (link.data.drop 1)
  else String.mk (dirPart notePath.data ++ link.data)

/-- The per-link loop shared by both branches of
renameAttachmentsForActiveMD (src/main.ts lines 166-172 and 179-188): skip
targets with no vault file, otherwise process them with
renameAttachmentIfNeeded. -/
def processLinks (cfg : PluginSettings) (ok : StorageOracle) :
    Vault → List String → Nat × Vault × List Event
  | st, [] => (0, st, [])
  | st, l :: ls =>
    match findFile st l with
    | none => processLinks cfg ok st ls
    | some _ =>
      let r := renameAttachmentIfNeeded cfg ok st l
      let rest := processLinks cfg ok r.2.1 ls
      ((if r.1 then 1 else 0) + rest.1, rest.2.1, r.2.2 ++ rest.2.2)

/-- The file-node targets of a parsed canvas, resolved against the canvas
path (src/main.ts lines 179-182; node.file must be present and non-empty,
matching JS truthiness). -/
def canvasNodeTargets (cpath : String) (nodes : List CanvasNode) : List String :=
  nodes.filterMap (fun n =>
    match n.file with
    | some l => if n.nodeType == "file" && !(l == "") then some (getFullPathForLink l cpath) else none
    | none => none)

/-- renameAttachmentsForActiveMD (src/main.ts lines 157-192).  For a canvas
active file the content is parsed with JSON.parse, which throws on malformed
JSON; the function has no try/catch, so the exception propagates and aborts
the whole operation - modelled as Except.error. -/
def renameAttachmentsForActiveMD (cfg : PluginSettings) (ok : StorageOracle)
    (st : Vault) : ActiveFile → Except Unit (Nat × Vault × List Event)
  | .md _ rlinks => .ok (processLinks cfg ok st rlinks)
  | .canvas cpath c =>
    match c with
    | .malformed => .error ()
    | .parsed nodes => .ok (processLinks cfg ok st (canvasNodeTargets cpath nodes))

/-- A file is canonically named when its basename equals its content
fingerprint (src/main.ts lines 79-84). -/
def canonicallyNamed (f : VFile) : Prop :=
  baseNameOf f.path = fingerprint f.content

/-- A file on which renameAttachmentIfNeeded is a no-op in the given state
(under a failure-free oracle): filtered out, canonically named, skipped by
the linked-only policy, or blocked by a content-identical duplicate while
merging is disabled. -/
def stableFile (cfg : PluginSettings) (st : Vault) (f : VFile) : Prop :=
  checkFilePathIsIgnored cfg f.path = true
  ∨ checkFileTypeIsAllowed cfg f.path = false
  ∨ canonicallyNamed f
  ∨ (allNotesFor st f.path = [] ∧ cfg.renameOnlyLinkedAttachments = true)
  ∨ (cfg.mergeTheSameAttachments = false ∧
      ∃ g ∈ st.files, g.path = vpOf f.path f ∧ fingerprint g.content = fingerprint f.content)

/-- A storage oracle on which no rename or delete ever fails. -/
def okNone : StorageOracle := ⟨fun _ => false, fun _ => false⟩

/-- A storage oracle on which deleting the file at "a.png" fails. -/
def okDelA : StorageOracle := ⟨fun _ => false, fun q => q == "a.png"⟩

/-- Settings fixture: png attachments, no ignored folders, linked-only off,
merging off. -/
def cfgPlain : PluginSettings := ⟨[], ["png"], false, false⟩

/-- Settings fixture: png attachments, linked-only policy on, merging on. -/
def cfgLinked : PluginSettings := ⟨[], ["png"], true, true⟩

/-- Settings fixture: png attachments, linked-only off, merging on. -/
def cfgMerge : PluginSettings := ⟨[], ["png"], false, true⟩

/-- Vault fixture: the attachment "a.png" plus an unrelated file already
sitting at a.png's candidate canonical path (a stale/foreign name
collision). -/
def stClash : Vault :=
  ⟨[⟨"a.png", [1]⟩, ⟨getFilePathWithRenamedBaseName "a.png" (fingerprint [1]), [2]⟩], []⟩

/-- Vault fixture: the attachment "a.png" plus a byte-identical duplicate
already sitting at its candidate canonical path. -/
def stDup : Vault :=
  ⟨[⟨"a.png", [1]⟩, ⟨getFilePathWithRenamedBaseName "a.png" (fingerprint [1]), [1]⟩], []⟩

/-- Vault fixture: the single attachment "a.png", not canonically named. -/
def stOne : Vault := ⟨[⟨"a.png", [1]⟩], []⟩

/-! ### List and string helper lemmas -/

theorem takeWhile_append_all {α : Type} {q : α → Bool} (l1 l2 : List α)
    (h : ∀ c ∈ l1, q c = true) :
    (l1 ++ l2).takeWhile q = l1 ++ l2.takeWhile q := by
  induction l1 with
  | nil => simp
  | cons c cs ih =>
    have hc : q c = true := h c (List.mem_cons_self _ _)
    simp only [List.cons_append, List.takeWhile_cons, hc, if_true]
    rw [ih (fun x hx => h x (List.mem_cons_of_mem _ hx))]

theorem takeWhile_eq_self_of_all {α : Type} {q : α → Bool} (l : List α)
    (h : ∀ c ∈ l, q c = true) : l.takeWhile q = l := by
  induction l with
  | nil => rfl
  | cons c cs ih =>
    have hc : q c = true := h c (List.mem_cons_self _ _)
    simp only [List.takeWhile_cons, hc, if_true]
    rw [ih (fun x hx => h x (List.mem_cons_of_mem _ hx))]

theorem pred_of_mem_takeWhile {α : Type} {q : α → Bool} {l : List α} {c : α}
    (h : c ∈ l.takeWhile q) : q c = true := by
  induction l with
  | nil => simp [List.takeWhile] at h
  | cons a l ih =>
    rw [List.takeWhile_cons] at h
    by_cases ha : q a = true
    · rw [if_pos ha] at h
      rcases List.mem_cons.mp h with rfl | h'
      · exact ha
      · exact ih h'
    · rw [if_neg ha] at h
      cases h

theorem mem_of_mem_takeWhile {α : Type} {q : α → Bool} {l : List α} {c : α}
    (h : c ∈ l.takeWhile q) : c ∈ l := by
  induction l with
  | nil => simp [List.takeWhile] at h
  | cons a l ih =>
    rw [List.takeWhile_cons] at h
    by_cases ha : q a = true
    · rw [if_pos ha] at h
      rcases List.mem_cons.mp h with rfl | h'
      · exact List.mem_cons_self _ _
      · exact List.mem_cons_of_mem _ (ih h')
    · rw [if_neg ha] at h
      cases h

theorem head_dropWhile_false {α : Type} {q : α → Bool} {l : List α} {c : α} {cs : List α}
    (h : l.dropWhile q = c :: cs) : q c = false := by
  induction l with
  | nil => simp [List.dropWhile] at h
  | cons a l ih =>
    rw [List.dropWhile_cons] at h
    by_cases ha : q a = true
    · rw [if_pos ha] at h
      exact ih h
    · rw [if_neg ha] at h
      cases h
      exact Bool.eq_false_iff.mpr ha

/-! ### Path utility lemmas -/

theorem fileNamePart_no_slash {cs : List Char} : ∀ c ∈ fileNamePart cs, (c == '/') = false := by
  intro c hc
  unfold fileNamePart at hc
  rw [List.mem_reverse] at hc
  have h := pred_of_mem_takeWhile hc
  simpa using h

theorem extPart_cases (cs : List Char) :
    extPart cs = [] ∨
      ∃ e, extPart cs = '.' :: e ∧ (∀ c ∈ e, (c == '.') = false) ∧
        (∀ c ∈ e, (c == '/') = false) := by
  unfold extPart
  by_cases h : ((fileNamePart cs).reverse.takeWhile (fun c => !(c == '.'))).length
      == (fileNamePart cs).length
  · left
    simp only [h, if_true]
  · right
    refine ⟨((fileNamePart cs).reverse.takeWhile (fun c => !(c == '.'))).reverse, ?_, ?_, ?_⟩
    · simp only [Bool.not_eq_true] at h
      simp only [h]
      rfl
    · intro c hc
      rw [List.mem_reverse] at hc
      simpa using pred_of_mem_takeWhile hc
    · intro c hc
      rw [List.mem_reverse] at hc
      have hm : c ∈ (fileNamePart cs).reverse := mem_of_mem_takeWhile hc
      rw [List.mem_reverse] at hm
      exact fileNamePart_no_slash c hm

theorem extPart_no_slash {cs : List Char} : ∀ c ∈ extPart cs, (c == '/') = false := by
  intro c hc
  rcases extPart_cases cs with h | ⟨e, h, _, hsl⟩
  · rw [h] at hc
    cases hc
  · rw [h] at hc
    rcases List.mem_cons.mp hc with rfl | hc'
    · decide
    · exact hsl c hc'

theorem dirPart_takeWhile_nil (cs : List Char) :
    (dirPart cs).reverse.takeWhile (fun c => !(c == '/')) = [] := by
  unfold dirPart
  rw [List.reverse_reverse]
  cases h : cs.reverse.dropWhile (fun c => !(c == '/')) with
  | nil => rfl
  | cons c rest =>
    have hc := head_dropWhile_false h
    rw [List.takeWhile_cons, if_neg (by simp [Bool.not_eq_true] at hc ⊢; exact hc)]

theorem fileNamePart_assembled (cs B : List Char)
    (hB : ∀ c ∈ B, (c == '/') = false) :
    fileNamePart (dirPart cs ++ B ++ extPart cs) = B ++ extPart cs := by
  have hq : ∀ c ∈ (extPart cs).reverse ++ B.reverse, (fun c => !(c == '/')) c = true := by
    intro c hc
    rcases List.mem_append.mp hc with h | h
    · rw [List.mem_reverse] at h
      simp [extPart_no_slash c h]
    · rw [List.mem_reverse] at h
      simp [hB c h]
  unfold fileNamePart
  rw [show (dirPart cs ++ B ++ extPart cs).reverse
      = ((extPart cs).reverse ++ B.reverse) ++ (dirPart cs).reverse by
    simp [List.reverse_append]]
  rw [takeWhile_append_all _ _ hq, dirPart_takeWhile_nil]
  simp [List.reverse_append]

theorem extPart_eq (cs : List Char) :
    extPart cs =
      if ((fileNamePart cs).reverse.takeWhile (fun c => !(c == '.'))).length
          == (fileNamePart cs).length then []
      else '.' :: ((fileNamePart cs).reverse.takeWhile (fun c => !(c == '.'))).reverse := rfl

theorem basename_eq (p ext : String) :
    basename p ext =
      if !ext.data.isEmpty && ext.data.isSuffixOf (fileNamePart p.data) then
        String.mk ((fileNamePart p.data).take ((fileNamePart p.data).length - ext.data.length))
      else String.mk (fileNamePart p.data) := rfl

theorem extPart_assembled (cs B : List Char)
    (hB : ∀ c ∈ B, (c == '/') = false ∧ (c == '.') = false) :
    extPart (dirPart cs ++ B ++ extPart cs) = extPart cs := by
  have hfn : fileNamePart (dirPart cs ++ B ++ extPart cs) = B ++ extPart cs :=
    fileNamePart_assembled cs B (fun c hc => (hB c hc).1)
  rcases extPart_cases cs with h0 | ⟨e, h0, hdot, _⟩
  · rw [h0] at hfn ⊢
    rw [extPart_eq, hfn]
    have htw : (B ++ ([] : List Char)).reverse.takeWhile (fun c => !(c == '.'))
        = (B ++ ([] : List Char)).reverse := by
      apply takeWhile_eq_self_of_all
      intro c hc
      rw [List.mem_reverse] at hc
      rw [List.append_nil] at hc
      simp [(hB c hc).2]
    rw [htw]
    simp
  · rw [h0] at hfn ⊢
    rw [extPart_eq, hfn]
    have hrev : (B ++ '.' :: e).reverse = e.reverse ++ '.' :: B.reverse := by
      simp [List.reverse_append, List.reverse_cons, List.append_assoc]
    rw [hrev]
    have hall : ∀ c ∈ e.reverse, (fun c => !(c == '.')) c = true := by
      intro c hc
      rw [List.mem_reverse] at hc
      simp [hdot c hc]
    rw [takeWhile_append_all _ _ hall]
    have hstop : ('.' :: B.reverse).takeWhile (fun c => !(c == '.')) = [] := by
      rw [List.takeWhile_cons]
      simp
    rw [hstop, List.append_nil]
    have hlen : (e.reverse.length == (B ++ '.' :: e).length) = false := by
      rw [beq_eq_false_iff_ne]
      simp only [List.length_reverse, List.length_append, List.length_cons]
      omega
    simp only [hlen]
    simp

theorem baseNameOf_assembled (p b : String)
    (hb : ∀ c ∈ b.data, (c == '/') = false ∧ (c == '.') = false) :
    baseNameOf (getFilePathWithRenamedBaseName p b) = b := by
  unfold baseNameOf getFilePathWithRenamedBaseName
  have hext : extname (String.mk (dirPart p.data ++ b.data ++ extPart p.data))
      = String.mk (extPart p.data) := by
    unfold extname
    rw [show (String.mk (dirPart p.data ++ b.data ++ extPart p.data)).data
        = dirPart p.data ++ b.data ++ extPart p.data from rfl]
    rw [extPart_assembled p.data b.data hb]
  rw [hext, basename_eq]
  rw [show (String.mk (dirPart p.data ++ b.data ++ extPart p.data)).data
      = dirPart p.data ++ b.data ++ extPart p.data from rfl]
  rw [fileNamePart_assembled p.data b.data (fun c hc => (hb c hc).1)]
  rw [show (String.mk (extPart p.data)).data = extPart p.data from rfl]
  rcases extPart_cases p.data with h0 | ⟨e, h0, _, _⟩
  · rw [h0]
    simp only [List.isEmpty_nil, Bool.not_true, Bool.false_and, if_neg (by simp : ¬(false = true))]
    rw [List.append_nil]
  · rw [h0]
    have hsuf : ('.' :: e).isSuffixOf (b.data ++ '.' :: e) = true := by
      rw [List.isSuffixOf_iff_suffix]
      exact List.suffix_append _ _
    simp only [List.isEmpty_cons, Bool.not_false, hsuf, Bool.and_self, if_true]
    have harith : (b.data ++ '.' :: e).length - ('.' :: e).length = b.data.length := by
      simp [List.length_append]
    rw [harith, List.take_left b.data ('.' :: e)]

/-! ### Fingerprint lemmas -/

theorem hexDigit_mem_of_lt : ∀ n < 16, hexDigit n ∈ hexChars := by decide

theorem hexChars_not_slash_dot : ∀ c ∈ hexChars, (c == '/') = false ∧ (c == '.') = false := by
  decide

theorem fingerprint_chars {b : List Nat} :
    ∀ c ∈ (fingerprint b).data, (c == '/') = false ∧ (c == '.') = false := by
  intro c hc
  unfold fingerprint at hc
  rw [show (String.mk ((List.range 32).map (fun i =>
      hexDigit ((b.foldl (fun a x => (a * 257 + x % 256 + 1) % (2 ^ 128)) 0) / 16 ^ (31 - i) % 16)))).data
      = (List.range 32).map (fun i =>
      hexDigit ((b.foldl (fun a x => (a * 257 + x % 256 + 1) % (2 ^ 128)) 0) / 16 ^ (31 - i) % 16)) from rfl] at hc
  obtain ⟨i, _, rfl⟩ := List.mem_map.mp hc
  apply hexChars_not_slash_dot
  apply hexDigit_mem_of_lt
  exact Nat.mod_lt _ (by decide)

theorem fingerprint_length (b : List Nat) : (fingerprint b).length = 32 := by
  unfold fingerprint
  show (String.mk _).data.length = 32
  simp

theorem baseNameOf_vpOf (p : String) (f : VFile) :
    baseNameOf (vpOf p f) = fingerprint f.content := by
  unfold vpOf
  exact baseNameOf_assembled p (fingerprint f.content) fingerprint_chars

/-! ### findFile lemmas -/

theorem findFile_some {st : Vault} {p : String} {f : VFile} (h : findFile st p = some f) :
    f ∈ st.files ∧ f.path = p := by
  refine ⟨List.mem_of_find?_eq_some h, ?_⟩
  have := List.find?_some h
  simpa using this

theorem findFile_none {st : Vault} {p : String} (h : findFile st p = none) :
    ∀ f ∈ st.files, f.path ≠ p := by
  rw [findFile, List.find?_eq_none] at h
  intro f hf
  simpa using h f hf

theorem find?_path_of_mem {l : List VFile} {f : VFile}
    (hn : (l.map VFile.path).Nodup) (hf : f ∈ l) :
    l.find? (fun g => g.path == f.path) = some f := by
  induction l with
  | nil => cases hf
  | cons a l ih =>
    rcases List.mem_cons.mp hf with rfl | hf'
    · simp [List.find?_cons]
    · have hn' : (∀ x ∈ l, ¬x.path = a.path) ∧ (l.map VFile.path).Nodup := by
        simpa using hn
      have hne : (a.path == f.path) = false := by
        rw [beq_eq_false_iff_ne]
        intro he
        exact hn'.1 f hf' he.symm
      rw [List.find?_cons, hne]
      exact ih hn'.2 hf'

theorem findFile_of_mem {st : Vault} {f : VFile}
    (hn : (pathsOf st).Nodup) (hf : f ∈ st.files) :
    findFile st f.path = some f :=
  find?_path_of_mem hn hf

theorem mem_unique_paths {st : Vault} {f g : VFile}
    (hn : (pathsOf st).Nodup) (hf : f ∈ st.files) (hg : g ∈ st.files)
    (hpq : f.path = g.path) : f = g := by
  have h1 := findFile_of_mem hn hf
  have h2 := findFile_of_mem hn hg
  rw [hpq] at h1
  rw [h1] at h2
  exact Option.some_inj.mp h2

/-! ### setDedup lemmas -/

theorem setDedup_aux_mem (xs : List String) :
    ∀ (acc : List String) (y : String),
      y ∈ xs.foldl (fun acc x => if acc.contains x then acc else acc ++ [x]) acc ↔
        y ∈ acc ∨ y ∈ xs := by
  induction xs with
  | nil => intro acc y; simp
  | cons x xs ih =>
    intro acc y
    rw [List.foldl_cons]
    by_cases h : acc.contains x
    · rw [if_pos h, ih]
      constructor
      · rintro (hy | hy)
        · exact Or.inl hy
        · exact Or.inr (List.mem_cons_of_mem _ hy)
      · rintro (hy | hy)
        · exact Or.inl hy
        · rcases List.mem_cons.mp hy with rfl | hy'
          · exact Or.inl (by simpa using h)
          · exact Or.inr hy'
    · rw [if_neg h, ih]
      simp only [List.mem_append, List.mem_singleton, List.mem_cons]
      tauto

theorem mem_setDedup {xs : List String} {y : String} : y ∈ setDedup xs ↔ y ∈ xs := by
  unfold setDedup
  rw [setDedup_aux_mem]
  simp

theorem setDedup_aux_nodup (xs : List String) :
    ∀ acc : List String, acc.Nodup →
      (xs.foldl (fun acc x => if acc.contains x then acc else acc ++ [x]) acc).Nodup := by
  induction xs with
  | nil => intro acc h; exact h
  | cons x xs ih =>
    intro acc hacc
    rw [List.foldl_cons]
    by_cases h : acc.contains x
    · rw [if_pos h]; exact ih acc hacc
    · rw [if_neg h]
      apply ih
      rw [List.nodup_append]
      refine ⟨hacc, List.nodup_singleton x, ?_⟩
      intro a ha hax
      rw [List.mem_singleton] at hax
      subst hax
      exact h (by simpa using ha)

theorem setDedup_nodup (xs : List String) : (setDedup xs).Nodup :=
  setDedup_aux_nodup xs [] List.nodup_nil

theorem setDedup_eq_nil {xs : List String} : setDedup xs = [] ↔ xs = [] := by
  constructor
  · intro h
    cases xs with
    | nil => rfl
    | cons x xs =>
      exfalso
      have : x ∈ setDedup (x :: xs) := mem_setDedup.mpr (List.mem_cons_self _ _)
      rw [h] at this
      cases this
  · rintro rfl
    rfl

/-! ### Lookup lemmas -/

theorem mem_mdLookup {docs : List Doc} {p x : String} :
    x ∈ mdLookup docs p ↔
      ∃ d ∈ docs, d.path = x ∧ strEnds d.path ".canvas" = false ∧ d.refs.contains p = true := by
  unfold mdLookup
  rw [List.mem_map]
  constructor
  · rintro ⟨d, hd, rfl⟩
    rw [List.mem_filter] at hd
    have hcond := hd.2
    rw [Bool.and_eq_true, Bool.not_eq_true'] at hcond
    exact ⟨d, hd.1, rfl, hcond.1, hcond.2⟩
  · rintro ⟨d, hd, rfl, h1, h2⟩
    refine ⟨d, ?_, rfl⟩
    rw [List.mem_filter]
    exact ⟨hd, by rw [Bool.and_eq_true, Bool.not_eq_true']; exact ⟨h1, h2⟩⟩

theorem mem_canvasLookup {docs : List Doc} {p x : String} :
    x ∈ (canvasLookup docs p).1 ↔
      ∃ d ∈ docs, d.path = x ∧ strEnds d.path ".canvas" = true ∧ d.malformed = false ∧
        d.refs.contains p = true := by
  induction docs with
  | nil => simp [canvasLookup]
  | cons d ds ih =>
    show x ∈ (if strEnds d.path ".canvas" then
        (if d.malformed then ((canvasLookup ds p).1, Event.errParse d.path :: (canvasLookup ds p).2)
         else if d.refs.contains p then (d.path :: (canvasLookup ds p).1, (canvasLookup ds p).2)
         else canvasLookup ds p)
      else canvasLookup ds p).1 ↔ _
    by_cases h1 : strEnds d.path ".canvas" = true
    · rw [if_pos h1]
      by_cases h2 : d.malformed = true
      · rw [if_pos h2]
        rw [show (((canvasLookup ds p).1, Event.errParse d.path :: (canvasLookup ds p).2)).1
            = (canvasLookup ds p).1 from rfl, ih]
        constructor
        · rintro ⟨d', hd', prop⟩
          exact ⟨d', List.mem_cons_of_mem _ hd', prop⟩
        · rintro ⟨d', hd', rfl, hc, hm, hr⟩
          rcases List.mem_cons.mp hd' with rfl | hd''
          · rw [h2] at hm; cases hm
          · exact ⟨d', hd'', rfl, hc, hm, hr⟩
      · rw [if_neg h2]
        by_cases h3 : d.refs.contains p = true
        · rw [if_pos h3]
          rw [show ((d.path :: (canvasLookup ds p).1, (canvasLookup ds p).2)).1
              = d.path :: (canvasLookup ds p).1 from rfl]
          rw [List.mem_cons, ih]
          constructor
          · rintro (rfl | ⟨d', hd', prop⟩)
            · exact ⟨d, List.mem_cons_self _ _, rfl, h1, Bool.not_eq_true _ ▸ h2, h3⟩
            · exact ⟨d', List.mem_cons_of_mem _ hd', prop⟩
          · rintro ⟨d', hd', rfl, hc, hm, hr⟩
            rcases List.mem_cons.mp hd' with rfl | hd''
            · exact Or.inl rfl
            · exact Or.inr ⟨d', hd'', rfl, hc, hm, hr⟩
        · rw [if_neg h3, ih]
          constructor
          · rintro ⟨d', hd', prop⟩
            exact ⟨d', List.mem_cons_of_mem _ hd', prop⟩
          · rintro ⟨d', hd', rfl, hc, hm, hr⟩
            rcases List.mem_cons.mp hd' with rfl | hd''
            · rw [hr] at h3; cases h3 rfl
            · exact ⟨d', hd'', rfl, hc, hm, hr⟩
    · rw [if_neg (by simpa using h1), ih]
      constructor
      · rintro ⟨d', hd', prop⟩
        exact ⟨d', List.mem_cons_of_mem _ hd', prop⟩
      · rintro ⟨d', hd', rfl, hc, hm, hr⟩
        rcases List.mem_cons.mp hd' with rfl | hd''
        · rw [hc] at h1; cases h1 rfl
        · exact ⟨d', hd'', rfl, hc, hm, hr⟩

theorem canvasLookup_events_shape {docs : List Doc} {p : String} :
    ∀ e ∈ (canvasLookup docs p).2, ∃ d, e = Event.errParse d := by
  induction docs with
  | nil => intro e he; cases he
  | cons d ds ih =>
    intro e he
    revert he
    show e ∈ (if strEnds d.path ".canvas" then
        (if d.malformed then ((canvasLookup ds p).1, Event.errParse d.path :: (canvasLookup ds p).2)
         else if d.refs.contains p then (d.path :: (canvasLookup ds p).1, (canvasLookup ds p).2)
         else canvasLookup ds p)
      else canvasLookup ds p).2 → _
    by_cases h1 : strEnds d.path ".canvas" = true
    · rw [if_pos h1]
      by_cases h2 : d.malformed = true
      · rw [if_pos h2]
        intro he
        rcases List.mem_cons.mp he with rfl | he'
        · exact ⟨d.path, rfl⟩
        · exact ih e he'
      · rw [if_neg h2]
        by_cases h3 : d.refs.contains p = true
        · rw [if_pos h3]; exact ih e
        · rw [if_neg h3]; exact ih e
    · rw [if_neg (by simpa using h1)]; exact ih e

theorem canvasLookup_errParse {docs : List Doc} {p : String} {d : Doc}
    (hd : d ∈ docs) (hc : strEnds d.path ".canvas" = true) (hm : d.malformed = true) :
    Event.errParse d.path ∈ (canvasLookup docs p).2 := by
  induction docs with
  | nil => cases hd
  | cons d0 ds ih =>
    show Event.errParse d.path ∈ (if strEnds d0.path ".canvas" then
        (if d0.malformed then ((canvasLookup ds p).1, Event.errParse d0.path :: (canvasLookup ds p).2)
         else if d0.refs.contains p then (d0.path :: (canvasLookup ds p).1, (canvasLookup ds p).2)
         else canvasLookup ds p)
      else canvasLookup ds p).2
    rcases List.mem_cons.mp hd with rfl | hd'
    · rw [if_pos hc, if_pos hm]
      exact List.mem_cons_self _ _
    · by_cases h1 : strEnds d0.path ".canvas" = true
      · rw [if_pos h1]
        by_cases h2 : d0.malformed = true
        · rw [if_pos h2]
          exact List.mem_cons_of_mem _ (ih hd')
        · rw [if_neg h2]
          by_cases h3 : d0.refs.contains p = true
          · rw [if_pos h3]; exact ih hd'
          · rw [if_neg h3]; exact ih hd'
      · rw [if_neg (by simpa using h1)]; exact ih hd'

theorem allNotesDocs_nodup (docs : List Doc) (p : String) : (allNotesDocs docs p).Nodup :=
  setDedup_nodup _

theorem allNotesDocs_eq_nil {docs : List Doc} {p : String} :
    allNotesDocs docs p = [] ↔ mdLookup docs p = [] ∧ (canvasLookup docs p).1 = [] := by
  unfold allNotesDocs
  rw [setDedup_eq_nil, List.append_eq_nil]

/-! ### Reference rewrite lemmas -/

theorem rewriteDoc_path (oldPath newPath : String) (d : Doc) :
    (rewriteDoc oldPath newPath d).path = d.path := rfl

theorem rewriteDoc_malformed (oldPath newPath : String) (d : Doc) :
    (rewriteDoc oldPath newPath d).malformed = d.malformed := rfl

theorem substRef_idem (oldPath newPath r : String) :
    substRef oldPath newPath (substRef oldPath newPath r) = substRef oldPath newPath r := by
  by_cases h : (r == oldPath) = true <;> simp [substRef, h]

theorem rewriteDoc_idem (oldPath newPath : String) (d : Doc) :
    rewriteDoc oldPath newPath (rewriteDoc oldPath newPath d) = rewriteDoc oldPath newPath d := by
  have hmap : (d.refs.map (substRef oldPath newPath)).map (substRef oldPath newPath)
      = d.refs.map (substRef oldPath newPath) := by
    rw [List.map_map]
    apply List.map_congr_left
    intro r _
    exact substRef_idem oldPath newPath r
  calc rewriteDoc oldPath newPath (rewriteDoc oldPath newPath d)
      = { d with refs := (d.refs.map (substRef oldPath newPath)).map (substRef oldPath newPath) } := rfl
    _ = { d with refs := d.refs.map (substRef oldPath newPath) } := by rw [hmap]
    _ = rewriteDoc oldPath newPath d := rfl

theorem updateChangedPathInNote_files (st : Vault) (note oldPath newPath : String) :
    (updateChangedPathInNote st note oldPath newPath).files = st.files := rfl

theorem updateChangedPathInCanvas_files (st : Vault) (note oldPath newPath : String) :
    (updateChangedPathInCanvas st note oldPath newPath).files = st.files := rfl

theorem updateNotes_files (notes : List String) (st : Vault) (oldPath newPath : String) :
    (updateNotes st notes oldPath newPath).files = st.files := by
  induction notes generalizing st with
  | nil => rfl
  | cons n ns ih =>
    unfold updateNotes
    rw [List.foldl_cons]
    by_cases h : strEnds n ".canvas" = true
    · rw [if_pos h]
      exact (ih _).trans (updateChangedPathInCanvas_files st n oldPath newPath)
    · rw [if_neg (by simpa using h)]
      exact (ih _).trans (updateChangedPathInNote_files st n oldPath newPath)

theorem updateNotes_docs_shape (notes : List String) (st : Vault) (oldPath newPath : String) :
    ∀ d' ∈ (updateNotes st notes oldPath newPath).docs,
      ∃ d ∈ st.docs, d' = d ∨ d' = rewriteDoc oldPath newPath d := by
  induction notes generalizing st with
  | nil => intro d' hd'; exact ⟨d', hd', Or.inl rfl⟩
  | cons n ns ih =>
    intro d' hd'
    unfold updateNotes at hd'
    rw [List.foldl_cons] at hd'
    obtain ⟨d1, hd1, hcase⟩ := ih
      (if strEnds n ".canvas" then updateChangedPathInCanvas st n oldPath newPath
       else updateChangedPathInNote st n oldPath newPath) d' (by exact hd')
    have hd1' : ∃ d ∈ st.docs, d1 = d ∨ d1 = rewriteDoc oldPath newPath d := by
      by_cases h : strEnds n ".canvas" = true
      · rw [if_pos h] at hd1
        unfold updateChangedPathInCanvas at hd1
        obtain ⟨d0, hd0, heq⟩ := List.mem_map.mp hd1
        refine ⟨d0, hd0, ?_⟩
        by_cases hp2 : (d0.path == n) = true
        · rw [if_pos hp2] at heq
          by_cases hm : d0.malformed = true
          · rw [if_pos hm] at heq
            exact Or.inl heq.symm
          · rw [if_neg (by simpa using hm)] at heq
            exact Or.inr heq.symm
        · rw [if_neg (by simpa using hp2)] at heq
          exact Or.inl heq.symm
      · rw [if_neg (by simpa using h)] at hd1
        unfold updateChangedPathInNote at hd1
        obtain ⟨d0, hd0, heq⟩ := List.mem_map.mp hd1
        refine ⟨d0, hd0, ?_⟩
        by_cases hp2 : (d0.path == n) = true
        · rw [if_pos hp2] at heq
          exact Or.inr heq.symm
        · rw [if_neg (by simpa using hp2)] at heq
          exact Or.inl heq.symm
    obtain ⟨d0, hd0, hcase0⟩ := hd1'
    refine ⟨d0, hd0, ?_⟩
    rcases hcase with rfl | rfl
    · exact hcase0
    · rcases hcase0 with rfl | rfl
      · exact Or.inr rfl
      · exact Or.inr (rewriteDoc_idem oldPath newPath d0)

/-! ### Vault mutation lemmas -/

theorem pathsOf_renameFile (st : Vault) (p np : String) :
    pathsOf (renameFile st p np) = (pathsOf st).map (fun q => if q == p then np else q) := by
  unfold pathsOf renameFile
  rw [List.map_map, List.map_map]
  apply List.map_congr_left
  intro f _
  by_cases h : (f.path == p) = true <;> simp [Function.comp, h]

theorem map_path_filter (l : List VFile) (p : String) :
    (l.filter (fun f => !(f.path == p))).map VFile.path
      = (l.map VFile.path).filter (fun q => !(q == p)) := by
  induction l with
  | nil => rfl
  | cons f fs ih =>
    rw [List.filter_cons, List.map_cons, List.filter_cons]
    by_cases hb : (!(f.path == p)) = true
    · rw [if_pos hb, if_pos hb, List.map_cons, ih]
    · rw [if_neg hb, if_neg hb, ih]

theorem pathsOf_deleteFile (st : Vault) (p : String) :
    pathsOf (deleteFile st p) = (pathsOf st).filter (fun q => !(q == p)) := by
  show (st.files.filter (fun f => !(f.path == p))).map VFile.path
      = (st.files.map VFile.path).filter (fun q => !(q == p))
  exact map_path_filter st.files p

theorem mem_pathsOf {st : Vault} {q : String} :
    q ∈ pathsOf st ↔ ∃ f ∈ st.files, f.path = q := by
  unfold pathsOf
  exact List.mem_map

theorem nodup_pathsOf_renameFile {st : Vault} {p np : String}
    (hn : (pathsOf st).Nodup) (hfresh : findFile st np = none) :
    (pathsOf (renameFile st p np)).Nodup := by
  rw [pathsOf_renameFile]
  have hnp : np ∉ pathsOf st := by
    intro hmem
    obtain ⟨f, hf, rfl⟩ := mem_pathsOf.mp hmem
    exact findFile_none hfresh f hf rfl
  apply List.Nodup.map_on _ hn
  intro x hx y hy hxy
  by_cases h1 : (x == p) = true
  · by_cases h2 : (y == p) = true
    · rw [beq_iff_eq] at h1 h2
      rw [h1, h2]
    · rw [if_pos h1, if_neg (by simpa using h2)] at hxy
      exact absurd (hxy ▸ hy) hnp
  · by_cases h2 : (y == p) = true
    · rw [if_neg (by simpa using h1), if_pos h2] at hxy
      exact absurd (hxy ▸ hx : np ∈ pathsOf st) hnp
    · rw [if_neg (by simpa using h1), if_neg (by simpa using h2)] at hxy
      exact hxy

theorem nodup_pathsOf_deleteFile {st : Vault} {p : String}
    (hn : (pathsOf st).Nodup) : (pathsOf (deleteFile st p)).Nodup := by
  rw [pathsOf_deleteFile]
  exact hn.filter _

theorem mem_pathsOf_renameFile {st : Vault} {p np q : String}
    (hq : q ∈ pathsOf st) (hne : q ≠ p) : q ∈ pathsOf (renameFile st p np) := by
  rw [pathsOf_renameFile]
  rw [List.mem_map]
  exact ⟨q, hq, by rw [if_neg (by simpa using hne)]⟩

theorem mem_pathsOf_deleteFile {st : Vault} {p q : String}
    (hq : q ∈ pathsOf st) (hne : q ≠ p) : q ∈ pathsOf (deleteFile st p) := by
  rw [pathsOf_deleteFile]
  rw [List.mem_filter]
  exact ⟨hq, by simpa using hne⟩

theorem mem_renameFile {st : Vault} {p np : String} {f' : VFile} :
    f' ∈ (renameFile st p np).files ↔
      ∃ f ∈ st.files, f' = if f.path == p then { f with path := np } else f := by
  unfold renameFile
  rw [List.mem_map]
  constructor
  · rintro ⟨f, hf, rfl⟩; exact ⟨f, hf, rfl⟩
  · rintro ⟨f, hf, rfl⟩; exact ⟨f, hf, rfl⟩

theorem mem_deleteFile {st : Vault} {p : String} {f : VFile} :
    f ∈ (deleteFile st p).files ↔ f ∈ st.files ∧ (f.path == p) = false := by
  unfold deleteFile
  rw [List.mem_filter]
  constructor
  · rintro ⟨h1, h2⟩; exact ⟨h1, by simpa using h2⟩
  · rintro ⟨h1, h2⟩; exact ⟨h1, by simpa using h2⟩

theorem mem_renameFile_of_mem {st : Vault} {p np : String} {f : VFile}
    (hf : f ∈ st.files) (hne : (f.path == p) = false) : f ∈ (renameFile st p np).files := by
  rw [mem_renameFile]
  exact ⟨f, hf, by rw [hne]; rfl⟩

theorem mem_deleteFile_of_mem {st : Vault} {p : String} {f : VFile}
    (hf : f ∈ st.files) (hne : (f.path == p) = false) : f ∈ (deleteFile st p).files :=
  mem_deleteFile.mpr ⟨hf, hne⟩

theorem renameFile_docs (st : Vault) (p np : String) : (renameFile st p np).docs = st.docs := rfl

theorem deleteFile_docs (st : Vault) (p : String) : (deleteFile st p).docs = st.docs := rfl

/-! ### Branch evaluation lemmas for renameAttachmentIfNeeded -/

theorem rin_gate {cfg : PluginSettings} {ok : StorageOracle} {st : Vault} {p : String}
    (h1 : (checkFilePathIsIgnored cfg p || !checkFileTypeIsAllowed cfg p) = true) :
    renameAttachmentIfNeeded cfg ok st p = (false, st, []) := by
  simp [renameAttachmentIfNeeded, h1]

theorem rin_nofile {cfg : PluginSettings} {ok : StorageOracle} {st : Vault} {p : String}
    (h1 : (checkFilePathIsIgnored cfg p || !checkFileTypeIsAllowed cfg p) = false)
    (h2 : findFile st p = none) :
    renameAttachmentIfNeeded cfg ok st p = (false, st, []) := by
  simp [renameAttachmentIfNeeded, h1, h2]

theorem rin_noop {cfg : PluginSettings} {ok : StorageOracle} {st : Vault} {p : String} {f : VFile}
    (h1 : (checkFilePathIsIgnored cfg p || !checkFileTypeIsAllowed cfg p) = false)
    (h2 : findFile st p = some f)
    (h3 : (baseNameOf p == fingerprint f.content) = true) :
    renameAttachmentIfNeeded cfg ok st p = (false, st, []) := by
  simp [renameAttachmentIfNeeded, h1, h2, h3]

theorem rin_unlinked {cfg : PluginSettings} {ok : StorageOracle} {st : Vault} {p : String} {f : VFile}
    (h1 : (checkFilePathIsIgnored cfg p || !checkFileTypeIsAllowed cfg p) = false)
    (h2 : findFile st p = some f)
    (h3 : (baseNameOf p == fingerprint f.content) = false)
    (h4 : ((allNotesFor st p).isEmpty && cfg.renameOnlyLinkedAttachments) = true) :
    renameAttachmentIfNeeded cfg ok st p =
      (false, st, (getNotesThatHaveLinkToFileInCanvas st p).2) := by
  simp [renameAttachmentIfNeeded, h1, h2, h3, h4]

theorem rin_clash {cfg : PluginSettings} {ok : StorageOracle} {st : Vault} {p : String} {f g : VFile}
    (h1 : (checkFilePathIsIgnored cfg p || !checkFileTypeIsAllowed cfg p) = false)
    (h2 : findFile st p = some f)
    (h3 : (baseNameOf p == fingerprint f.content) = false)
    (h4 : ((allNotesFor st p).isEmpty && cfg.renameOnlyLinkedAttachments) = false)
    (h5 : findFile st (getFilePathWithRenamedBaseName p (fingerprint f.content)) = some g)
    (h6 : (fingerprint g.content != fingerprint f.content) = true) :
    renameAttachmentIfNeeded cfg ok st p =
      (false, st, (getNotesThatHaveLinkToFileInCanvas st p).2
        ++ [Event.warnClash p (getFilePathWithRenamedBaseName p (fingerprint f.content))]) := by
  simp [renameAttachmentIfNeeded, h1, h2, h3, h4, h5, h6]

theorem rin_dup {cfg : PluginSettings} {ok : StorageOracle} {st : Vault} {p : String} {f g : VFile}
    (h1 : (checkFilePathIsIgnored cfg p || !checkFileTypeIsAllowed cfg p) = false)
    (h2 : findFile st p = some f)
    (h3 : (baseNameOf p == fingerprint f.content) = false)
    (h4 : ((allNotesFor st p).isEmpty && cfg.renameOnlyLinkedAttachments) = false)
    (h5 : findFile st (getFilePathWithRenamedBaseName p (fingerprint f.content)) = some g)
    (h6 : (fingerprint g.content != fingerprint f.content) = false)
    (h7 : cfg.mergeTheSameAttachments = false) :
    renameAttachmentIfNeeded cfg ok st p =
      (false, st, (getNotesThatHaveLinkToFileInCanvas st p).2
        ++ [Event.warnDup p (getFilePathWithRenamedBaseName p (fingerprint f.content))]) := by
  simp [renameAttachmentIfNeeded, h1, h2, h3, h4, h5, h6, h7]

theorem rin_delfail {cfg : PluginSettings} {ok : StorageOracle} {st : Vault} {p : String} {f g : VFile}
    (h1 : (checkFilePathIsIgnored cfg p || !checkFileTypeIsAllowed cfg p) = false)
    (h2 : findFile st p = some f)
    (h3 : (baseNameOf p == fingerprint f.content) = false)
    (h4 : ((allNotesFor st p).isEmpty && cfg.renameOnlyLinkedAttachments) = false)
    (h5 : findFile st (getFilePathWithRenamedBaseName p (fingerprint f.content)) = some g)
    (h6 : (fingerprint g.content != fingerprint f.content) = false)
    (h7 : cfg.mergeTheSameAttachments = true)
    (h8 : ok.deleteFails p = true) :
    renameAttachmentIfNeeded cfg ok st p =
      (false, st, (getNotesThatHaveLinkToFileInCanvas st p).2 ++ [Event.errDelete p]) := by
  simp [renameAttachmentIfNeeded, h1, h2, h3, h4, h5, h6, h7, h8]

theorem rin_merge {cfg : PluginSettings} {ok : StorageOracle} {st : Vault} {p : String} {f g : VFile}
    (h1 : (checkFilePathIsIgnored cfg p || !checkFileTypeIsAllowed cfg p) = false)
    (h2 : findFile st p = some f)
    (h3 : (baseNameOf p == fingerprint f.content) = false)
    (h4 : ((allNotesFor st p).isEmpty && cfg.renameOnlyLinkedAttachments) = false)
    (h5 : findFile st (getFilePathWithRenamedBaseName p (fingerprint f.content)) = some g)
    (h6 : (fingerprint g.content != fingerprint f.content) = false)
    (h7 : cfg.mergeTheSameAttachments = true)
    (h8 : ok.deleteFails p = false) :
    renameAttachmentIfNeeded cfg ok st p =
      (true,
        updateNotes (deleteFile st p) (allNotesFor st p) p
          (getFilePathWithRenamedBaseName p (fingerprint f.content)),
        (getNotesThatHaveLinkToFileInCanvas st p).2
          ++ Event.deleted p :: rewriteEvents (allNotesFor st p) p
              (getFilePathWithRenamedBaseName p (fingerprint f.content))) := by
  simp [renameAttachmentIfNeeded, h1, h2, h3, h4, h5, h6, h7, h8]

theorem rin_renfail {cfg : PluginSettings} {ok : StorageOracle} {st : Vault} {p : String} {f : VFile}
    (h1 : (checkFilePathIsIgnored cfg p || !checkFileTypeIsAllowed cfg p) = false)
    (h2 : findFile st p = some f)
    (h3 : (baseNameOf p == fingerprint f.content) = false)
    (h4 : ((allNotesFor st p).isEmpty && cfg.renameOnlyLinkedAttachments) = false)
    (h5 : findFile st (getFilePathWithRenamedBaseName p (fingerprint f.content)) = none)
    (h9 : ok.renameFails p = true) :
    renameAttachmentIfNeeded cfg ok st p =
      (false, st, (getNotesThatHaveLinkToFileInCanvas st p).2
        ++ [Event.errRename p (getFilePathWithRenamedBaseName p (fingerprint f.content))]) := by
  simp [renameAttachmentIfNeeded, h1, h2, h3, h4, h5, h9]

theorem rin_rename {cfg : PluginSettings} {ok : StorageOracle} {st : Vault} {p : String} {f : VFile}
    (h1 : (checkFilePathIsIgnored cfg p || !checkFileTypeIsAllowed cfg p) = false)
    (h2 : findFile st p = some f)
    (h3 : (baseNameOf p == fingerprint f.content) = false)
    (h4 : ((allNotesFor st p).isEmpty && cfg.renameOnlyLinkedAttachments) = false)
    (h5 : findFile st (getFilePathWithRenamedBaseName p (fingerprint f.content)) = none)
    (h9 : ok.renameFails p = false) :
    renameAttachmentIfNeeded cfg ok st p =
      (true,
        updateNotes (renameFile st p (getFilePathWithRenamedBaseName p (fingerprint f.content)))
          (allNotesFor st p) p (getFilePathWithRenamedBaseName p (fingerprint f.content)),
        (getNotesThatHaveLinkToFileInCanvas st p).2
          ++ Event.renamed p (getFilePathWithRenamedBaseName p (fingerprint f.content))
            :: rewriteEvents (allNotesFor st p) p
              (getFilePathWithRenamedBaseName p (fingerprint f.content))) := by
  simp [renameAttachmentIfNeeded, h1, h2, h3, h4, h5, h9]

/-! ### Outcome lemmas for renameAttachmentIfNeeded -/

theorem pes_not_mutation (st : Vault) (p : String) :
    ∀ e ∈ (getNotesThatHaveLinkToFileInCanvas st p).2, isMutationEvent e = false := by
  intro e he
  obtain ⟨d, rfl⟩ := canvasLookup_events_shape e he
  rfl

theorem rin_outcome (cfg : PluginSettings) (ok : StorageOracle) (st : Vault) (p : String) :
    (renameAttachmentIfNeeded cfg ok st p).1 = true ∨
    ((renameAttachmentIfNeeded cfg ok st p).2.1 = st ∧
      ∀ e ∈ (renameAttachmentIfNeeded cfg ok st p).2.2, isMutationEvent e = false) := by
  cases h1 : (checkFilePathIsIgnored cfg p || !checkFileTypeIsAllowed cfg p) with
  | true =>
    right
    rw [rin_gate h1]
    exact ⟨rfl, by intro e he; cases he⟩
  | false =>
    cases h2 : findFile st p with
    | none =>
      right
      rw [rin_nofile h1 h2]
      exact ⟨rfl, by intro e he; cases he⟩
    | some f =>
      cases h3 : (baseNameOf p == fingerprint f.content) with
      | true =>
        right
        rw [rin_noop h1 h2 h3]
        exact ⟨rfl, by intro e he; cases he⟩
      | false =>
        cases h4 : ((allNotesFor st p).isEmpty && cfg.renameOnlyLinkedAttachments) with
        | true =>
          right
          rw [rin_unlinked h1 h2 h3 h4]
          exact ⟨rfl, fun e he => pes_not_mutation st p e he⟩
        | false =>
          cases h5 : findFile st (getFilePathWithRenamedBaseName p (fingerprint f.content)) with
          | some g =>
            cases h6 : (fingerprint g.content != fingerprint f.content) with
            | true =>
              right
              rw [rin_clash h1 h2 h3 h4 h5 h6]
              refine ⟨rfl, ?_⟩
              intro e he
              rcases List.mem_append.mp he with he' | he'
              · exact pes_not_mutation st p e he'
              · rw [List.mem_singleton] at he'
                subst he'
                rfl
            | false =>
              cases h7 : cfg.mergeTheSameAttachments with
              | false =>
                right
                rw [rin_dup h1 h2 h3 h4 h5 h6 h7]
                refine ⟨rfl, ?_⟩
                intro e he
                rcases List.mem_append.mp he with he' | he'
                · exact pes_not_mutation st p e he'
                · rw [List.mem_singleton] at he'
                  subst he'
                  rfl
              | true =>
                cases h8 : ok.deleteFails p with
                | true =>
                  right
                  rw [rin_delfail h1 h2 h3 h4 h5 h6 h7 h8]
                  refine ⟨rfl, ?_⟩
                  intro e he
                  rcases List.mem_append.mp he with he' | he'
                  · exact pes_not_mutation st p e he'
                  · rw [List.mem_singleton] at he'
                    subst he'
                    rfl
                | false =>
                  left
                  rw [rin_merge h1 h2 h3 h4 h5 h6 h7 h8]
          | none =>
            cases h9 : ok.renameFails p with
            | true =>
              right
              rw [rin_renfail h1 h2 h3 h4 h5 h9]
              refine ⟨rfl, ?_⟩
              intro e he
              rcases List.mem_append.mp he with he' | he'
              · exact pes_not_mutation st p e he'
              · rw [List.mem_singleton] at he'
                subst he'
                rfl
            | false =>
              left
              rw [rin_rename h1 h2 h3 h4 h5 h9]

theorem rin_false_state {cfg : PluginSettings} {ok : StorageOracle} {st : Vault} {p : String}
    (h : (renameAttachmentIfNeeded cfg ok st p).1 = false) :
    (renameAttachmentIfNeeded cfg ok st p).2.1 = st := by
  rcases rin_outcome cfg ok st p with h1 | h1
  · rw [h1] at h
    cases h
  · exact h1.1

theorem rin_false_noMutation {cfg : PluginSettings} {ok : StorageOracle} {st : Vault} {p : String}
    (h : (renameAttachmentIfNeeded cfg ok st p).1 = false) :
    ∀ e ∈ (renameAttachmentIfNeeded cfg ok st p).2.2, isMutationEvent e = false := by
  rcases rin_outcome cfg ok st p with h1 | h1
  · rw [h1] at h
    cases h
  · exact h1.2

theorem rin_true_cases {cfg : PluginSettings} {ok : StorageOracle} {st : Vault} {p : String}
    (h : (renameAttachmentIfNeeded cfg ok st p).1 = true) :
    ∃ f, findFile st p = some f ∧
      (baseNameOf p == fingerprint f.content) = false ∧
      (((∃ g, findFile st (getFilePathWithRenamedBaseName p (fingerprint f.content)) = some g ∧
            fingerprint g.content = fingerprint f.content) ∧
          cfg.mergeTheSameAttachments = true ∧
          renameAttachmentIfNeeded cfg ok st p =
            (true,
              updateNotes (deleteFile st p) (allNotesFor st p) p
                (getFilePathWithRenamedBaseName p (fingerprint f.content)),
              (getNotesThatHaveLinkToFileInCanvas st p).2
                ++ Event.deleted p :: rewriteEvents (allNotesFor st p) p
                    (getFilePathWithRenamedBaseName p (fingerprint f.content))))
        ∨ (findFile st (getFilePathWithRenamedBaseName p (fingerprint f.content)) = none ∧
          renameAttachmentIfNeeded cfg ok st p =
            (true,
              updateNotes (renameFile st p (getFilePathWithRenamedBaseName p (fingerprint f.content)))
                (allNotesFor st p) p (getFilePathWithRenamedBaseName p (fingerprint f.content)),
              (getNotesThatHaveLinkToFileInCanvas st p).2
                ++ Event.renamed p (getFilePathWithRenamedBaseName p (fingerprint f.content))
                  :: rewriteEvents (allNotesFor st p) p
                    (getFilePathWithRenamedBaseName p (fingerprint f.content))))) := by
  cases h1 : (checkFilePathIsIgnored cfg p || !checkFileTypeIsAllowed cfg p) with
  | true =>
    rw [rin_gate h1] at h
    cases h
  | false =>
    cases h2 : findFile st p with
    | none =>
      rw [rin_nofile h1 h2] at h
      cases h
    | some f =>
      cases h3 : (baseNameOf p == fingerprint f.content) with
      | true =>
        rw [rin_noop h1 h2 h3] at h
        cases h
      | false =>
        cases h4 : ((allNotesFor st p).isEmpty && cfg.renameOnlyLinkedAttachments) with
        | true =>
          rw [rin_unlinked h1 h2 h3 h4] at h
          cases h
        | false =>
          cases h5 : findFile st (getFilePathWithRenamedBaseName p (fingerprint f.content)) with
          | some g =>
            cases h6 : (fingerprint g.content != fingerprint f.content) with
            | true =>
              rw [rin_clash h1 h2 h3 h4 h5 h6] at h
              cases h
            | false =>
              cases h7 : cfg.mergeTheSameAttachments with
              | false =>
                rw [rin_dup h1 h2 h3 h4 h5 h6 h7] at h
                cases h
              | true =>
                cases h8 : ok.deleteFails p with
                | true =>
                  rw [rin_delfail h1 h2 h3 h4 h5 h6 h7 h8] at h
                  cases h
                | false =>
                  refine ⟨f, rfl, h3, Or.inl ⟨⟨g, h5, ?_⟩, rfl, rin_merge h1 h2 h3 h4 h5 h6 h7 h8⟩⟩
                  rwa [bne_eq_false_iff_eq] at h6
          | none =>
            cases h9 : ok.renameFails p with
            | true =>
              rw [rin_renfail h1 h2 h3 h4 h5 h9] at h
              cases h
            | false =>
              exact ⟨f, rfl, h3, Or.inr ⟨h5, rin_rename h1 h2 h3 h4 h5 h9⟩⟩

/-! ### Stability lemmas -/

theorem contains_true_iff {l : List String} {x : String} : l.contains x = true ↔ x ∈ l := by
  simp

theorem stable_false {cfg : PluginSettings} (ok : StorageOracle) {st : Vault} {f : VFile}
    (hn : (pathsOf st).Nodup) (hf : f ∈ st.files) (hs : stableFile cfg st f) :
    (renameAttachmentIfNeeded cfg ok st f.path).1 = false := by
  have hfind : findFile st f.path = some f := findFile_of_mem hn hf
  rcases hs with h | h | h | h | h
  · have hg : (checkFilePathIsIgnored cfg f.path || !checkFileTypeIsAllowed cfg f.path) = true := by
      rw [h]
      rfl
    rw [rin_gate hg]
  · have hg : (checkFilePathIsIgnored cfg f.path || !checkFileTypeIsAllowed cfg f.path) = true := by
      rw [h]
      simp
    rw [rin_gate hg]
  · cases hg : (checkFilePathIsIgnored cfg f.path || !checkFileTypeIsAllowed cfg f.path) with
    | true => rw [rin_gate hg]
    | false =>
      have h3 : (baseNameOf f.path == fingerprint f.content) = true := beq_iff_eq.mpr h
      rw [rin_noop hg hfind h3]
  · cases hg : (checkFilePathIsIgnored cfg f.path || !checkFileTypeIsAllowed cfg f.path) with
    | true => rw [rin_gate hg]
    | false =>
      cases h3 : (baseNameOf f.path == fingerprint f.content) with
      | true => rw [rin_noop hg hfind h3]
      | false =>
        have h4 : ((allNotesFor st f.path).isEmpty && cfg.renameOnlyLinkedAttachments) = true := by
          rw [show allNotesFor st f.path = [] from h.1, h.2]
          rfl
        rw [rin_unlinked hg hfind h3 h4]
  · obtain ⟨hm, g, hgmem, hgpath, hgfp⟩ := h
    cases hg : (checkFilePathIsIgnored cfg f.path || !checkFileTypeIsAllowed cfg f.path) with
    | true => rw [rin_gate hg]
    | false =>
      cases h3 : (baseNameOf f.path == fingerprint f.content) with
      | true => rw [rin_noop hg hfind h3]
      | false =>
        cases h4 : ((allNotesFor st f.path).isEmpty && cfg.renameOnlyLinkedAttachments) with
        | true => rw [rin_unlinked hg hfind h3 h4]
        | false =>
          have h5 : findFile st (getFilePathWithRenamedBaseName f.path (fingerprint f.content))
              = some g := by
            have hgg := findFile_of_mem hn hgmem
            rw [hgpath] at hgg
            unfold vpOf at hgg
            exact hgg
          have h6 : (fingerprint g.content != fingerprint f.content) = false := by
            rw [bne_eq_false_iff_eq]
            exact hgfp
          rw [rin_dup hg hfind h3 h4 h5 h6 hm]

theorem rin_false_stable {cfg : PluginSettings} {ok : StorageOracle} {st : Vault} {f : VFile}
    (hokd : ok.deleteFails f.path = false) (hokr : ok.renameFails f.path = false)
    (hn : (pathsOf st).Nodup) (hf : f ∈ st.files)
    (hres : (renameAttachmentIfNeeded cfg ok st f.path).1 = false)
    (hnoclash : ∀ a b, Event.warnClash a b ∉ (renameAttachmentIfNeeded cfg ok st f.path).2.2) :
    stableFile cfg st f := by
  have hfind : findFile st f.path = some f := findFile_of_mem hn hf
  cases h1 : (checkFilePathIsIgnored cfg f.path || !checkFileTypeIsAllowed cfg f.path) with
  | true =>
    rcases Bool.or_eq_true_iff.mp h1 with h | h
    · exact Or.inl h
    · exact Or.inr (Or.inl (by simpa using h))
  | false =>
    cases h3 : (baseNameOf f.path == fingerprint f.content) with
    | true => exact Or.inr (Or.inr (Or.inl (beq_iff_eq.mp h3)))
    | false =>
      cases h4 : ((allNotesFor st f.path).isEmpty && cfg.renameOnlyLinkedAttachments) with
      | true =>
        have h4' := Bool.and_eq_true_iff.mp h4
        refine Or.inr (Or.inr (Or.inr (Or.inl ⟨?_, h4'.2⟩)))
        exact List.isEmpty_iff.mp h4'.1
      | false =>
        cases h5 : findFile st (getFilePathWithRenamedBaseName f.path (fingerprint f.content)) with
        | none =>
          exfalso
          rw [rin_rename h1 hfind h3 h4 h5 hokr] at hres
          cases hres
        | some g =>
          cases h6 : (fingerprint g.content != fingerprint f.content) with
          | true =>
            exfalso
            have hc := hnoclash f.path (getFilePathWithRenamedBaseName f.path (fingerprint f.content))
            rw [rin_clash h1 hfind h3 h4 h5 h6] at hc
            exact hc (List.mem_append.mpr (Or.inr (List.mem_singleton.mpr rfl)))
          | false =>
            cases h7 : cfg.mergeTheSameAttachments with
            | false =>
              refine Or.inr (Or.inr (Or.inr (Or.inr ⟨h7, g, (findFile_some h5).1, ?_, ?_⟩)))
              · unfold vpOf
                exact (findFile_some h5).2
              · rw [bne_eq_false_iff_eq] at h6
                exact h6
            | true =>
              exfalso
              rw [rin_merge h1 hfind h3 h4 h5 h6 h7 hokd] at hres
              cases hres

theorem allNotes_nil_step {olddocs newdocs : List Doc} {q oldPath newPath : String}
    (hdocs : ∀ d' ∈ newdocs, ∃ d ∈ olddocs, d' = d ∨ d' = rewriteDoc oldPath newPath d)
    (hq : q ≠ newPath)
    (h : allNotesDocs olddocs q = []) : allNotesDocs newdocs q = [] := by
  rw [allNotesDocs_eq_nil] at h ⊢
  obtain ⟨hmd, hcv⟩ := h
  have hrefs : ∀ d' ∈ newdocs, d'.refs.contains q = true →
      ∃ d ∈ olddocs, d.path = d'.path ∧ d.malformed = d'.malformed ∧ d.refs.contains q = true := by
    intro d' hd' hcont
    obtain ⟨d, hd, hcase⟩ := hdocs d' hd'
    refine ⟨d, hd, ?_, ?_, ?_⟩
    · rcases hcase with rfl | rfl
      · rfl
      · rfl
    · rcases hcase with rfl | rfl
      · rfl
      · rfl
    · rcases hcase with rfl | rfl
      · exact hcont
      · rw [contains_true_iff] at hcont ⊢
        obtain ⟨r, hr, hrq⟩ := List.mem_map.mp hcont
        unfold substRef at hrq
        by_cases hro : (r == oldPath) = true
        · rw [if_pos hro] at hrq
          exact absurd hrq.symm hq
        · rw [if_neg hro] at hrq
          rw [← hrq]
          exact hr
  constructor
  · rw [List.eq_nil_iff_forall_not_mem]
    intro x hx
    obtain ⟨d', hd', rfl, hcanvas, hcont⟩ := mem_mdLookup.mp hx
    obtain ⟨d, hd, hpath, _, hcont'⟩ := hrefs d' hd' hcont
    have : d.path ∈ mdLookup olddocs q :=
      mem_mdLookup.mpr ⟨d, hd, rfl, by rw [hpath]; exact hcanvas, hcont'⟩
    rw [hmd] at this
    cases this
  · rw [List.eq_nil_iff_forall_not_mem]
    intro x hx
    obtain ⟨d', hd', rfl, hcanvas, hmal, hcont⟩ := mem_canvasLookup.mp hx
    obtain ⟨d, hd, hpath, hmal', hcont'⟩ := hrefs d' hd' hcont
    have : d.path ∈ (canvasLookup olddocs q).1 :=
      mem_canvasLookup.mpr ⟨d, hd, rfl, by rw [hpath]; exact hcanvas,
        by rw [hmal']; exact hmal, hcont'⟩
    rw [hcv] at this
    cases this

theorem pathsOf_updateNotes (st : Vault) (notes : List String) (oldPath newPath : String) :
    pathsOf (updateNotes st notes oldPath newPath) = pathsOf st :=
  congrArg (List.map VFile.path) (updateNotes_files notes st oldPath newPath)

theorem stable_preserved_rename {cfg : PluginSettings} {st : Vault} {p : String} {f0 f : VFile}
    (hn : (pathsOf st).Nodup)
    (hfind : findFile st p = some f0)
    (hbn : (baseNameOf p == fingerprint f0.content) = false)
    (hfresh : findFile st (getFilePathWithRenamedBaseName p (fingerprint f0.content)) = none)
    (hf : f ∈ st.files) (hfp : f.path ≠ p)
    (hs : stableFile cfg st f) :
    stableFile cfg
      (updateNotes (renameFile st p (getFilePathWithRenamedBaseName p (fingerprint f0.content)))
        (allNotesFor st p) p (getFilePathWithRenamedBaseName p (fingerprint f0.content))) f := by
  rcases hs with h | h | h | h | h
  · exact Or.inl h
  · exact Or.inr (Or.inl h)
  · exact Or.inr (Or.inr (Or.inl h))
  · have hqvp : f.path ≠ getFilePathWithRenamedBaseName p (fingerprint f0.content) := by
      intro he
      exact findFile_none hfresh f hf he
    refine Or.inr (Or.inr (Or.inr (Or.inl ⟨?_, h.2⟩)))
    exact allNotes_nil_step
      (updateNotes_docs_shape (allNotesFor st p)
        (renameFile st p (getFilePathWithRenamedBaseName p (fingerprint f0.content))) p
        (getFilePathWithRenamedBaseName p (fingerprint f0.content)))
      hqvp h.1
  · obtain ⟨hm, g, hgmem, hgpath, hgfp⟩ := h
    have hcang : baseNameOf g.path = fingerprint g.content := by
      rw [hgpath]
      unfold vpOf
      rw [baseNameOf_assembled f.path (fingerprint f.content) fingerprint_chars, hgfp]
    have hgp : g.path ≠ p := by
      intro he
      have hgf0 : g = f0 := by
        have h1 := findFile_of_mem hn hgmem
        rw [he, hfind] at h1
        exact (Option.some_inj.mp h1).symm
      rw [he, hgf0] at hcang
      rw [beq_eq_false_iff_ne] at hbn
      exact hbn hcang
    refine Or.inr (Or.inr (Or.inr (Or.inr ⟨hm, g, ?_, hgpath, hgfp⟩)))
    rw [updateNotes_files]
    exact mem_renameFile_of_mem hgmem (beq_eq_false_iff_ne.mpr hgp)

theorem stable_preserved_merge {cfg : PluginSettings} {st : Vault} {p : String} {f0 g0 f : VFile}
    (hn : (pathsOf st).Nodup)
    (hfind : findFile st p = some f0)
    (hbn : (baseNameOf p == fingerprint f0.content) = false)
    (hg0 : findFile st (getFilePathWithRenamedBaseName p (fingerprint f0.content)) = some g0)
    (hg0fp : fingerprint g0.content = fingerprint f0.content)
    (hm : cfg.mergeTheSameAttachments = true)
    (hf : f ∈ st.files) (hfp : f.path ≠ p)
    (hs : stableFile cfg st f) :
    stableFile cfg
      (updateNotes (deleteFile st p) (allNotesFor st p) p
        (getFilePathWithRenamedBaseName p (fingerprint f0.content))) f := by
  rcases hs with h | h | h | h | h
  · exact Or.inl h
  · exact Or.inr (Or.inl h)
  · exact Or.inr (Or.inr (Or.inl h))
  · by_cases hqvp : f.path = getFilePathWithRenamedBaseName p (fingerprint f0.content)
    · have hfg : f = g0 := by
        have h1 := findFile_of_mem hn hf
        rw [hqvp, hg0] at h1
        exact (Option.some_inj.mp h1).symm
      refine Or.inr (Or.inr (Or.inl ?_))
      show baseNameOf f.path = fingerprint f.content
      rw [hqvp, baseNameOf_assembled p (fingerprint f0.content) fingerprint_chars, hfg, hg0fp]
    · refine Or.inr (Or.inr (Or.inr (Or.inl ⟨?_, h.2⟩)))
      exact allNotes_nil_step
        (updateNotes_docs_shape (allNotesFor st p) (deleteFile st p) p
          (getFilePathWithRenamedBaseName p (fingerprint f0.content)))
        hqvp h.1
  · obtain ⟨hm', _⟩ := h
    rw [hm'] at hm
    cases hm

/-! ### Batch run lemmas -/

theorem runPaths_cons (cfg : PluginSettings) (ok : StorageOracle) (st : Vault) (p : String)
    (ps : List String) :
    runPaths cfg ok st (p :: ps) =
      ((if (renameAttachmentIfNeeded cfg ok st p).1 then 1 else 0)
          + (runPaths cfg ok (renameAttachmentIfNeeded cfg ok st p).2.1 ps).1,
        (runPaths cfg ok (renameAttachmentIfNeeded cfg ok st p).2.1 ps).2.1,
        (renameAttachmentIfNeeded cfg ok st p).2.2
          ++ (runPaths cfg ok (renameAttachmentIfNeeded cfg ok st p).2.1 ps).2.2) := rfl

theorem run1_post (cfg : PluginSettings) (ok : StorageOracle)
    (hok : ∀ q, ok.renameFails q = false ∧ ok.deleteFails q = false) :
    ∀ (ps : List String) (st : Vault), (pathsOf st).Nodup → ps.Nodup →
      (∀ q ∈ ps, q ∈ pathsOf st) →
      (∀ f ∈ st.files, f.path ∉ ps → stableFile cfg st f) →
      (∀ a b, Event.warnClash a b ∉ (runPaths cfg ok st ps).2.2) →
      (pathsOf (runPaths cfg ok st ps).2.1).Nodup ∧
        ∀ f ∈ (runPaths cfg ok st ps).2.1.files, stableFile cfg (runPaths cfg ok st ps).2.1 f := by
  intro ps
  induction ps with
  | nil =>
    intro st h1 _ _ h4 _
    exact ⟨h1, fun f hf => h4 f hf (by simp)⟩
  | cons p ps ih =>
    intro st h1 h2 h3 h4 h5
    have hp : p ∈ pathsOf st := h3 p (List.mem_cons_self _ _)
    have h2' : ps.Nodup := (List.nodup_cons.mp h2).2
    have hpnotps : p ∉ ps := (List.nodup_cons.mp h2).1
    have hqnep : ∀ q ∈ ps, q ≠ p := by
      intro q hq he
      exact hpnotps (he ▸ hq)
    have h5step : ∀ a b, Event.warnClash a b ∉ (renameAttachmentIfNeeded cfg ok st p).2.2 := by
      intro a b hmem
      apply h5 a b
      rw [runPaths_cons]
      exact List.mem_append.mpr (Or.inl hmem)
    have h5rest : ∀ a b, Event.warnClash a b
        ∉ (runPaths cfg ok (renameAttachmentIfNeeded cfg ok st p).2.1 ps).2.2 := by
      intro a b hmem
      apply h5 a b
      rw [runPaths_cons]
      exact List.mem_append.mpr (Or.inr hmem)
    cases hres : (renameAttachmentIfNeeded cfg ok st p).1 with
    | false =>
      have hst1 : (renameAttachmentIfNeeded cfg ok st p).2.1 = st := rin_false_state hres
      obtain ⟨f0, hf0, hf0p⟩ := mem_pathsOf.mp hp
      have hstab0 : stableFile cfg st f0 := by
        apply rin_false_stable (hok f0.path).2 (hok f0.path).1 h1 hf0
        · rw [hf0p]
          exact hres
        · rw [hf0p]
          exact h5step
      have hnext := ih st h1 h2'
        (fun q hq => h3 q (List.mem_cons_of_mem _ hq))
        (by
          intro f hf hfnp
          by_cases hfp : f.path = p
          · have : f = f0 := mem_unique_paths h1 hf hf0 (hfp.trans hf0p.symm)
            rw [this]
            exact hstab0
          · exact h4 f hf (by
              intro hmem
              rcases List.mem_cons.mp hmem with he | he
              · exact hfp he
              · exact hfnp he))
        (by rw [← hst1]; exact h5rest)
      rw [runPaths_cons, hst1]
      exact hnext
    | true =>
      obtain ⟨f0, hfind0, hbn0, hcase⟩ := rin_true_cases hres
      have hf0mem := (findFile_some hfind0).1
      have hf0path := (findFile_some hfind0).2
      rcases hcase with ⟨⟨g0, hg0, hg0fp⟩, hm, heq⟩ | ⟨hfresh, heq⟩
      · -- merge branch
        have hst1 : (renameAttachmentIfNeeded cfg ok st p).2.1 =
            updateNotes (deleteFile st p) (allNotesFor st p) p
              (getFilePathWithRenamedBaseName p (fingerprint f0.content)) := by
          rw [heq]
        have hnodup1 : (pathsOf (updateNotes (deleteFile st p) (allNotesFor st p) p
            (getFilePathWithRenamedBaseName p (fingerprint f0.content)))).Nodup := by
          rw [pathsOf_updateNotes]
          exact nodup_pathsOf_deleteFile h1
        have hmem1 : ∀ q ∈ ps, q ∈ pathsOf (updateNotes (deleteFile st p) (allNotesFor st p) p
            (getFilePathWithRenamedBaseName p (fingerprint f0.content))) := by
          intro q hq
          rw [pathsOf_updateNotes]
          exact mem_pathsOf_deleteFile (h3 q (List.mem_cons_of_mem _ hq)) (hqnep q hq)
        have hstab1 : ∀ f ∈ (updateNotes (deleteFile st p) (allNotesFor st p) p
              (getFilePathWithRenamedBaseName p (fingerprint f0.content))).files,
            f.path ∉ ps → stableFile cfg (updateNotes (deleteFile st p) (allNotesFor st p) p
              (getFilePathWithRenamedBaseName p (fingerprint f0.content))) f := by
          intro f hf hfnp
          rw [updateNotes_files] at hf
          obtain ⟨hfst, hfpb⟩ := mem_deleteFile.mp hf
          have hfp : f.path ≠ p := beq_eq_false_iff_ne.mp hfpb
          have hstf : stableFile cfg st f := h4 f hfst (by
            intro hmem
            rcases List.mem_cons.mp hmem with he | he
            · exact hfp he
            · exact hfnp he)
          exact stable_preserved_merge h1 hfind0 hbn0 hg0 hg0fp hm hfst hfp hstf
        have hnext := ih _ hnodup1 h2' hmem1 hstab1 (by rw [← hst1]; exact h5rest)
        rw [runPaths_cons, hst1]
        exact hnext
      · -- rename branch
        have hst1 : (renameAttachmentIfNeeded cfg ok st p).2.1 =
            updateNotes (renameFile st p (getFilePathWithRenamedBaseName p (fingerprint f0.content)))
              (allNotesFor st p) p
              (getFilePathWithRenamedBaseName p (fingerprint f0.content)) := by
          rw [heq]
        have hnodup1 : (pathsOf (updateNotes
            (renameFile st p (getFilePathWithRenamedBaseName p (fingerprint f0.content)))
            (allNotesFor st p) p
            (getFilePathWithRenamedBaseName p (fingerprint f0.content)))).Nodup := by
          rw [pathsOf_updateNotes]
          exact nodup_pathsOf_renameFile h1 hfresh
        have hmem1 : ∀ q ∈ ps, q ∈ pathsOf (updateNotes
            (renameFile st p (getFilePathWithRenamedBaseName p (fingerprint f0.content)))
            (allNotesFor st p) p
            (getFilePathWithRenamedBaseName p (fingerprint f0.content))) := by
          intro q hq
          rw [pathsOf_updateNotes]
          exact mem_pathsOf_renameFile (h3 q (List.mem_cons_of_mem _ hq)) (hqnep q hq)
        have hstab1 : ∀ f ∈ (updateNotes
              (renameFile st p (getFilePathWithRenamedBaseName p (fingerprint f0.content)))
              (allNotesFor st p) p
              (getFilePathWithRenamedBaseName p (fingerprint f0.content))).files,
            f.path ∉ ps → stableFile cfg (updateNotes
              (renameFile st p (getFilePathWithRenamedBaseName p (fingerprint f0.content)))
              (allNotesFor st p) p
              (getFilePathWithRenamedBaseName p (fingerprint f0.content))) f := by
          intro f hf hfnp
          rw [updateNotes_files] at hf
          obtain ⟨g1, hg1, hfeq⟩ := mem_renameFile.mp hf
          by_cases hg1p : (g1.path == p) = true
          · rw [if_pos hg1p] at hfeq
            have hg1f0 : g1 = f0 := by
              have hh := findFile_of_mem h1 hg1
              rw [beq_iff_eq.mp hg1p, hfind0] at hh
              exact (Option.some_inj.mp hh).symm
            refine Or.inr (Or.inr (Or.inl ?_))
            show baseNameOf f.path = fingerprint f.content
            rw [hfeq, hg1f0]
            show baseNameOf (getFilePathWithRenamedBaseName p (fingerprint f0.content))
                = fingerprint f0.content
            exact baseNameOf_assembled p (fingerprint f0.content) fingerprint_chars
          · rw [if_neg hg1p] at hfeq
            subst hfeq
            have hfp : f.path ≠ p := by
              intro he
              rw [he] at hg1p
              exact hg1p (by simp)
            have hstf : stableFile cfg st f := by
              apply h4 f hg1
              intro hmem
              rcases List.mem_cons.mp hmem with he | he
              · exact hfp he
              · exact hfnp he
            exact stable_preserved_rename h1 hfind0 hbn0 hfresh hg1 hfp hstf
        have hnext := ih _ hnodup1 h2' hmem1 hstab1 (by rw [← hst1]; exact h5rest)
        rw [runPaths_cons, hst1]
        exact hnext

theorem run_stable (cfg : PluginSettings) (ok : StorageOracle) :
    ∀ (ps : List String) (st : Vault), (pathsOf st).Nodup →
      (∀ q ∈ ps, q ∈ pathsOf st) →
      (∀ f ∈ st.files, stableFile cfg st f) →
      (runPaths cfg ok st ps).1 = 0 ∧ (runPaths cfg ok st ps).2.1 = st := by
  intro ps
  induction ps with
  | nil => intro st _ _ _; exact ⟨rfl, rfl⟩
  | cons p ps ih =>
    intro st h1 h3 hstab
    obtain ⟨f0, hf0, hf0p⟩ := mem_pathsOf.mp (h3 p (List.mem_cons_self _ _))
    have hres : (renameAttachmentIfNeeded cfg ok st p).1 = false := by
      rw [← hf0p]
      exact stable_false ok h1 hf0 (hstab f0 hf0)
    have hst1 : (renameAttachmentIfNeeded cfg ok st p).2.1 = st := rin_false_state hres
    have hnext := ih st h1 (fun q hq => h3 q (List.mem_cons_of_mem _ hq)) hstab
    rw [runPaths_cons, hres, hst1]
    refine ⟨?_, hnext.2⟩
    simp only [if_neg (by simp : ¬(false = true))]
    rw [Nat.zero_add]
    exact hnext.1

theorem action_is_mutation {e : Event} (h : isActionEvent e = true) :
    isMutationEvent e = true := by
  cases e <;> first | rfl | (cases h)

theorem rin_events_action_count (cfg : PluginSettings) (ok : StorageOracle) (st : Vault)
    (p : String) :
    (renameAttachmentIfNeeded cfg ok st p).2.2.countP isActionEvent
      = if (renameAttachmentIfNeeded cfg ok st p).1 then 1 else 0 := by
  cases hres : (renameAttachmentIfNeeded cfg ok st p).1 with
  | false =>
    simp only [if_neg (by simp : ¬(false = true))]
    rw [List.countP_eq_zero]
    intro e he hact
    have hmut := rin_false_noMutation hres e he
    rw [action_is_mutation hact] at hmut
    cases hmut
  | true =>
    simp only [if_pos rfl]
    obtain ⟨f0, _, _, hcase⟩ := rin_true_cases hres
    have hpes : ∀ e ∈ (getNotesThatHaveLinkToFileInCanvas st p).2, ¬isActionEvent e = true := by
      intro e he hact
      obtain ⟨d, rfl⟩ := canvasLookup_events_shape e he
      cases hact
    have hrews : ∀ a b : String, ∀ e ∈ rewriteEvents (allNotesFor st p) a b,
        ¬isActionEvent e = true := by
      intro a b e he hact
      obtain ⟨n, _, rfl⟩ := List.mem_map.mp he
      cases hact
    rcases hcase with ⟨_, _, heq⟩ | ⟨_, heq⟩ <;>
    · rw [heq]
      show ((getNotesThatHaveLinkToFileInCanvas st p).2 ++ _ :: rewriteEvents _ _ _).countP
          isActionEvent = 1
      rw [List.countP_append, List.countP_cons]
      rw [List.countP_eq_zero.mpr (hpes), List.countP_eq_zero.mpr (hrews _ _)]
      rfl

theorem runPaths_count_eq_actions (cfg : PluginSettings) (ok : StorageOracle) :
    ∀ (ps : List String) (st : Vault),
      (runPaths cfg ok st ps).1 = (runPaths cfg ok st ps).2.2.countP isActionEvent := by
  intro ps
  induction ps with
  | nil => intro st; rfl
  | cons p ps ih =>
    intro st
    rw [runPaths_cons]
    show (if (renameAttachmentIfNeeded cfg ok st p).1 then 1 else 0)
        + (runPaths cfg ok (renameAttachmentIfNeeded cfg ok st p).2.1 ps).1
      = ((renameAttachmentIfNeeded cfg ok st p).2.2
          ++ (runPaths cfg ok (renameAttachmentIfNeeded cfg ok st p).2.1 ps).2.2).countP
          isActionEvent
    rw [List.countP_append, rin_events_action_count, ih]

theorem nodup_step (cfg : PluginSettings) (ok : StorageOracle) (st : Vault) (p : String)
    (hn : (pathsOf st).Nodup) :
    (pathsOf (renameAttachmentIfNeeded cfg ok st p).2.1).Nodup := by
  cases hres : (renameAttachmentIfNeeded cfg ok st p).1 with
  | false =>
    rw [rin_false_state hres]
    exact hn
  | true =>
    obtain ⟨f0, _, _, hcase⟩ := rin_true_cases hres
    rcases hcase with ⟨_, _, heq⟩ | ⟨hfresh, heq⟩
    · rw [heq]
      show (pathsOf (updateNotes (deleteFile st p) _ _ _)).Nodup
      rw [pathsOf_updateNotes]
      exact nodup_pathsOf_deleteFile hn
    · rw [heq]
      show (pathsOf (updateNotes (renameFile st p _) _ _ _)).Nodup
      rw [pathsOf_updateNotes]
      exact nodup_pathsOf_renameFile hn hfresh

theorem canonical_survives_step (cfg : PluginSettings) (ok : StorageOracle) (st : Vault)
    (p : String) {f : VFile} (hn : (pathsOf st).Nodup) (hf : f ∈ st.files)
    (hcan : canonicallyNamed f) :
    f ∈ (renameAttachmentIfNeeded cfg ok st p).2.1.files := by
  cases hres : (renameAttachmentIfNeeded cfg ok st p).1 with
  | false =>
    rw [rin_false_state hres]
    exact hf
  | true =>
    obtain ⟨f0, hfind0, hbn0, hcase⟩ := rin_true_cases hres
    have hfp : f.path ≠ p := by
      intro he
      have : f = f0 := by
        have hh := findFile_of_mem hn hf
        rw [he, hfind0] at hh
        exact (Option.some_inj.mp hh).symm
      rw [beq_eq_false_iff_ne] at hbn0
      apply hbn0
      rw [← he, ← this]
      exact hcan
    rcases hcase with ⟨_, _, heq⟩ | ⟨_, heq⟩
    · rw [heq]
      show f ∈ (updateNotes (deleteFile st p) _ _ _).files
      rw [updateNotes_files]
      exact mem_deleteFile_of_mem hf (beq_eq_false_iff_ne.mpr hfp)
    · rw [heq]
      show f ∈ (updateNotes (renameFile st p _) _ _ _).files
      rw [updateNotes_files]
      exact mem_renameFile_of_mem hf (beq_eq_false_iff_ne.mpr hfp)

theorem canonical_survives_run (cfg : PluginSettings) (ok : StorageOracle) :
    ∀ (ps : List String) (st : Vault) {f : VFile}, (pathsOf st).Nodup → f ∈ st.files →
      canonicallyNamed f → f ∈ (runPaths cfg ok st ps).2.1.files := by
  intro ps
  induction ps with
  | nil => intro st f _ hf _; exact hf
  | cons p ps ih =>
    intro st f hn hf hcan
    rw [runPaths_cons]
    exact ih _ (nodup_step cfg ok st p hn) (canonical_survives_step cfg ok st p hn hf hcan) hcan

theorem fingerprint_data_hex {b : List Nat} :
    ∀ c ∈ (fingerprint b).data, c ∈ hexChars := by
  intro c hc
  unfold fingerprint at hc
  rw [show (String.mk ((List.range 32).map (fun i =>
      hexDigit ((b.foldl (fun a x => (a * 257 + x % 256 + 1) % (2 ^ 128)) 0) / 16 ^ (31 - i) % 16)))).data
      = (List.range 32).map (fun i =>
      hexDigit ((b.foldl (fun a x => (a * 257 + x % 256 + 1) % (2 ^ 128)) 0) / 16 ^ (31 - i) % 16)) from rfl] at hc
  obtain ⟨i, _, rfl⟩ := List.mem_map.mp hc
  apply hexDigit_mem_of_lt
  exact Nat.mod_lt _ (by decide)

theorem run_skip_false {cfg : PluginSettings} {ok : StorageOracle} {st : Vault} {p : String}
    {ps : List String} (hfail : (renameAttachmentIfNeeded cfg ok st p).1 = false) :
    (runPaths cfg ok st (p :: ps)).1 = (runPaths cfg ok st ps).1
    ∧ (runPaths cfg ok st (p :: ps)).2.1 = (runPaths cfg ok st ps).2.1 := by
  have hst1 := rin_false_state hfail
  constructor
  · rw [runPaths_cons]
    show (if (renameAttachmentIfNeeded cfg ok st p).1 then 1 else 0)
        + (runPaths cfg ok (renameAttachmentIfNeeded cfg ok st p).2.1 ps).1
      = (runPaths cfg ok st ps).1
    rw [hfail, hst1]
    simp
  · rw [runPaths_cons]
    show (runPaths cfg ok (renameAttachmentIfNeeded cfg ok st p).2.1 ps).2.1
      = (runPaths cfg ok st ps).2.1
    rw [hst1]

theorem filterMap_rewroteNote_nil_of_noMutation {l : List Event}
    (h : ∀ e ∈ l, isMutationEvent e = false) :
    l.filterMap rewroteNote = [] := by
  rw [List.filterMap_eq_nil_iff]
  intro e he
  have hm := h e he
  cases e <;> first | rfl | (cases hm)

theorem filterMap_rewroteNote_rewrites (notes : List String) (a b : String) :
    (rewriteEvents notes a b).filterMap rewroteNote = notes := by
  induction notes with
  | nil => rfl
  | cons n ns ih =>
    show (Event.rewrote n a b :: rewriteEvents ns a b).filterMap rewroteNote = n :: ns
    rw [List.filterMap_cons]
    show n :: (rewriteEvents ns a b).filterMap rewroteNote = n :: ns
    rw [ih]

theorem filterMap_rewroteNote_pes (st : Vault) (p : String) :
    ((getNotesThatHaveLinkToFileInCanvas st p).2).filterMap rewroteNote = [] := by
  rw [List.filterMap_eq_nil_iff]
  intro e he
  obtain ⟨d, rfl⟩ := canvasLookup_events_shape e he
  rfl

/-! ### Claim theorems -/

/-- C9: whenever renameAttachmentIfNeeded returns false for an attachment, the
call has performed no vault mutation: the state (files and every document's
references) is unchanged, and no rename, delete, or rewrite event was
emitted. -/
theorem claim9_theorem (cfg : PluginSettings) (ok : StorageOracle) (st : Vault) (p : String)
    (h : (renameAttachmentIfNeeded cfg ok st p).1 = false) :
    (renameAttachmentIfNeeded cfg ok st p).2.1 = st
    ∧ ∀ e ∈ (renameAttachmentIfNeeded cfg ok st p).2.2, isMutationEvent e = false :=
  ⟨rin_false_state h, rin_false_noMutation h⟩

/-- C9 witness: a file filtered out by extension leaves the vault
unchanged. -/
theorem claim9_witness :
    (renameAttachmentIfNeeded cfgPlain okNone stOne "b.txt").2.1 = stOne :=
  (claim9_theorem cfgPlain okNone stOne "b.txt" (by decide)).1

/-- C10: the gating is raw case-sensitive string matching: a path is ignored
iff some configured ignore folder is a literal character prefix of it (no
trailing separator required), and allowed iff it literally ends with a dot
followed by a configured extension; a gated-out file is skipped with no
effect, and an extension differing only in letter case (IMG.PNG vs png) is
not allowed. -/
theorem claim10_theorem (cfg : PluginSettings) (ok : StorageOracle) (st : Vault) (p : String) :
    (checkFilePathIsIgnored cfg p = true ↔ ∃ folder ∈ cfg.ignoreFolders, strStarts p folder = true)
    ∧ (checkFileTypeIsAllowed cfg p = true ↔ ∃ e ∈ cfg.renameFileTypes, strEnds p ("." ++ e) = true)
    ∧ (checkFilePathIsIgnored cfg p = true ∨ checkFileTypeIsAllowed cfg p = false →
        renameAttachmentIfNeeded cfg ok st p = (false, st, []))
    ∧ checkFileTypeIsAllowed ⟨[], ["png"], false, false⟩ "IMG.PNG" = false
    ∧ checkFilePathIsIgnored ⟨["attach"], [], false, false⟩ "attachments/img.png" = true := by
  refine ⟨?_, ?_, ?_, by decide, by decide⟩
  · unfold checkFilePathIsIgnored
    exact List.any_eq_true
  · unfold checkFileTypeIsAllowed
    exact List.any_eq_true
  · intro h
    apply rin_gate
    rcases h with h | h
    · rw [h]
      rfl
    · rw [h]
      simp

/-- C10 witness: IMG.PNG is skipped (returns false with no effect) when only
the lowercase extension png is configured. -/
theorem claim10_witness :
    renameAttachmentIfNeeded cfgPlain okNone stOne "IMG.PNG" = (false, stOne, []) :=
  (claim10_theorem cfgPlain okNone stOne "IMG.PNG").2.2.1 (Or.inr (by decide))

/-- C6: the deduplicated union of markdown and canvas referencers contains
each document path at most once, and consequently the reference-rewrite
events of any renameAttachmentIfNeeded call name each referencing document
at most once. -/
theorem claim6_theorem (cfg : PluginSettings) (ok : StorageOracle) (st : Vault) (p : String) :
    (allNotesFor st p).Nodup
    ∧ ((renameAttachmentIfNeeded cfg ok st p).2.2.filterMap rewroteNote).Nodup := by
  refine ⟨setDedup_nodup _, ?_⟩
  cases hres : (renameAttachmentIfNeeded cfg ok st p).1 with
  | false =>
    rw [filterMap_rewroteNote_nil_of_noMutation (rin_false_noMutation hres)]
    exact List.nodup_nil
  | true =>
    obtain ⟨f0, _, _, hcase⟩ := rin_true_cases hres
    rcases hcase with ⟨_, _, heq⟩ | ⟨_, heq⟩ <;>
    · rw [heq]
      show (((getNotesThatHaveLinkToFileInCanvas st p).2
          ++ _ :: rewriteEvents (allNotesFor st p) p _).filterMap rewroteNote).Nodup
      rw [List.filterMap_append, filterMap_rewroteNote_pes, List.filterMap_cons]
      show ([] ++ (rewriteEvents (allNotesFor st p) p _).filterMap rewroteNote).Nodup
      rw [List.nil_append, filterMap_rewroteNote_rewrites]
      exact setDedup_nodup _

/-- C7: generateValidBaseName is a function of the file's byte content only:
any two files with byte-identical content, in any two vault states and at
any two paths, get the identical digest string; the digest is a fixed-length
hexadecimal string (32 characters over 0-9a-f). -/
theorem claim7_theorem (st st2 : Vault) (p q : String) (f g : VFile)
    (hf : findFile st p = some f) (hg : findFile st2 q = some g)
    (hc : f.content = g.content) :
    generateValidBaseName st p = generateValidBaseName st2 q
    ∧ ∀ b : List Nat, (fingerprint b).length = 32 ∧ ∀ c ∈ (fingerprint b).data, c ∈ hexChars := by
  constructor
  · unfold generateValidBaseName
    rw [hf, hg]
    show some (fingerprint f.content) = some (fingerprint g.content)
    rw [hc]
  · intro b
    exact ⟨fingerprint_length b, fingerprint_data_hex⟩

/-- C7 witness: two files with the same bytes at different paths in
different vaults hash to the same base name. -/
theorem claim7_witness :
    generateValidBaseName stOne "a.png"
        = generateValidBaseName stDup (getFilePathWithRenamedBaseName "a.png" (fingerprint [1]))
    ∧ (fingerprint [5]).length = 32 :=
  ⟨(claim7_theorem stOne stDup "a.png" (getFilePathWithRenamedBaseName "a.png" (fingerprint [1]))
      ⟨"a.png", [1]⟩ ⟨getFilePathWithRenamedBaseName "a.png" (fingerprint [1]), [1]⟩
      (by decide) (by decide) rfl).1,
   ((claim7_theorem stOne stDup "a.png" (getFilePathWithRenamedBaseName "a.png" (fingerprint [1]))
      ⟨"a.png", [1]⟩ ⟨getFilePathWithRenamedBaseName "a.png" (fingerprint [1]), [1]⟩
      (by decide) (by decide) rfl).2 [5]).1⟩

/-- C5 counterexample: renameAttachmentsForActiveMD does not skip a
malformed active canvas - JSON.parse throws (src/main.ts line 177, no
try/catch), the operation aborts with the error and no attachment is
processed, although the same vault with a parsable canvas would have renamed
one file. -/
theorem claim5_counterexample :
    renameAttachmentsForActiveMD cfgPlain okNone stOne
        (ActiveFile.canvas "b.canvas" CanvasContent.malformed) = Except.error ()
    ∧ (renameAttachmentsForActiveMD cfgPlain okNone stOne
        (ActiveFile.canvas "b.canvas" (CanvasContent.parsed [⟨"file", some "/a.png"⟩]))).map
          (fun r => r.1) = Except.ok 1 := by
  constructor
  · rfl
  · rfl

/-- C5 (amended): in the reference sweep (the canvas link lookup, modelled
from the spec since src/links-handler.ts is not under src/), a canvas
document whose JSON fails to parse is skipped with an error report and never
contributes referencers, while parsable documents are unaffected; the
active-canvas entry point renameAttachmentsForActiveMD, however, does NOT
satisfy the skip: a malformed active canvas aborts the whole operation with
the propagated parse error. -/
theorem claim5_theorem :
    (∀ (docs : List Doc) (p x : String),
      x ∈ (canvasLookup docs p).1 ↔ ∃ d ∈ docs, d.path = x ∧ strEnds d.path ".canvas" = true
          ∧ d.malformed = false ∧ d.refs.contains p = true)
    ∧ (∀ (docs : List Doc) (p : String) (d : Doc), d ∈ docs → strEnds d.path ".canvas" = true →
        d.malformed = true → Event.errParse d.path ∈ (canvasLookup docs p).2)
    ∧ (∀ (cfg : PluginSettings) (ok : StorageOracle) (st : Vault) (cp : String),
        renameAttachmentsForActiveMD cfg ok st (ActiveFile.canvas cp CanvasContent.malformed)
          = Except.error ()) :=
  ⟨fun _ _ _ => mem_canvasLookup,
   fun _ _ _ hd hc hm => canvasLookup_errParse hd hc hm,
   fun _ _ _ _ => rfl⟩

/-- C5 witness: a malformed canvas document is reported during the lookup,
and a malformed active canvas aborts the entry point. -/
theorem claim5_witness :
    Event.errParse "b.canvas" ∈ (canvasLookup [⟨"b.canvas", true, ["a.png"]⟩] "a.png").2
    ∧ renameAttachmentsForActiveMD cfgPlain okNone stOne
        (ActiveFile.canvas "b.canvas" CanvasContent.malformed) = Except.error () :=
  ⟨claim5_theorem.2.1 [⟨"b.canvas", true, ["a.png"]⟩] "a.png" ⟨"b.canvas", true, ["a.png"]⟩
      (List.mem_singleton.mpr rfl) (by decide) rfl,
   claim5_theorem.2.2 cfgPlain okNone stOne "b.canvas"⟩

/-- C1 counterexample: an attachment that passes the folder/extension
filters, is not canonically named, and collides with a different-content
file at its candidate path, but is unlinked while the linked-only policy is
active: renameAttachmentIfNeeded returns false and mutates nothing, but
reports no clash (the event log is empty), refuting the claim's "reports the
clash" at this input. -/
theorem claim1_counterexample :
    (checkFilePathIsIgnored cfgLinked "a.png" || !checkFileTypeIsAllowed cfgLinked "a.png") = false
    ∧ findFile stClash "a.png" = some ⟨"a.png", [1]⟩
    ∧ baseNameOf "a.png" ≠ fingerprint [1]
    ∧ findFile stClash (getFilePathWithRenamedBaseName "a.png" (fingerprint [1]))
        = some ⟨getFilePathWithRenamedBaseName "a.png" (fingerprint [1]), [2]⟩
    ∧ fingerprint [2] ≠ fingerprint [1]
    ∧ renameAttachmentIfNeeded cfgLinked okNone stClash "a.png" = (false, stClash, []) := by
  refine ⟨by decide, by decide, by decide, by decide, by decide, by decide⟩

/-- C1 (amended): for every candidate attachment that passes the
folder/extension filters, is not canonically named, and is not skipped by
the linked-only policy, if a file exists at its candidate canonical path
whose fingerprint differs from the target, then renameAttachmentIfNeeded
performs no rename, delete, or reference rewrite (the state is returned
unchanged), reports the clash, and returns false. -/
theorem claim1_theorem (cfg : PluginSettings) (ok : StorageOracle) (st : Vault) (p : String)
    (f g : VFile)
    (hgate : (checkFilePathIsIgnored cfg p || !checkFileTypeIsAllowed cfg p) = false)
    (hfind : findFile st p = some f)
    (hnc : baseNameOf p ≠ fingerprint f.content)
    (hlink : ((allNotesFor st p).isEmpty && cfg.renameOnlyLinkedAttachments) = false)
    (hex : findFile st (getFilePathWithRenamedBaseName p (fingerprint f.content)) = some g)
    (hclash : fingerprint g.content ≠ fingerprint f.content) :
    renameAttachmentIfNeeded cfg ok st p
        = (false, st, (getNotesThatHaveLinkToFileInCanvas st p).2
            ++ [Event.warnClash p (getFilePathWithRenamedBaseName p (fingerprint f.content))])
    ∧ Event.warnClash p (getFilePathWithRenamedBaseName p (fingerprint f.content))
        ∈ (renameAttachmentIfNeeded cfg ok st p).2.2
    ∧ ∀ e ∈ (renameAttachmentIfNeeded cfg ok st p).2.2, isMutationEvent e = false := by
  have h3 : (baseNameOf p == fingerprint f.content) = false := beq_eq_false_iff_ne.mpr hnc
  have h6 : (fingerprint g.content != fingerprint f.content) = true := by
    rw [bne_iff_ne]
    exact hclash
  have heq := @rin_clash cfg ok st p f g hgate hfind h3 hlink hex h6
  refine ⟨heq, ?_, ?_⟩
  · rw [heq]
    exact List.mem_append.mpr (Or.inr (List.mem_singleton.mpr rfl))
  · rw [heq]
    intro e he
    rcases List.mem_append.mp he with he' | he'
    · exact pes_not_mutation st p e he'
    · rw [List.mem_singleton] at he'
      subst he'
      rfl

/-- C1 witness: a concrete clash (linked-only policy off) is blocked and
reported with no mutation. -/
theorem claim1_witness :
    renameAttachmentIfNeeded cfgMerge okNone stClash "a.png"
        = (false, stClash, (getNotesThatHaveLinkToFileInCanvas stClash "a.png").2
            ++ [Event.warnClash "a.png"
                (getFilePathWithRenamedBaseName "a.png" (fingerprint [1]))]) :=
  (claim1_theorem cfgMerge okNone stClash "a.png" ⟨"a.png", [1]⟩
    ⟨getFilePathWithRenamedBaseName "a.png" (fingerprint [1]), [2]⟩
    (by decide) (by decide) (by decide) (by decide) (by decide) (by decide)).1

/-- C2: in the merge path (a file exists at the candidate path with matching
fingerprint and the merge policy is enabled), the engine deletes the
attachment first and rewrites references only afterwards: on delete success
the event log is exactly the parse reports, then the delete, then the
rewrites, and the rewrites apply to the post-delete state; on delete failure
it returns false and the state - hence every document's references - is
unchanged. -/
theorem claim2_theorem (cfg : PluginSettings) (ok : StorageOracle) (st : Vault) (p : String)
    (f g : VFile)
    (hgate : (checkFilePathIsIgnored cfg p || !checkFileTypeIsAllowed cfg p) = false)
    (hfind : findFile st p = some f)
    (hnc : baseNameOf p ≠ fingerprint f.content)
    (hlink : ((allNotesFor st p).isEmpty && cfg.renameOnlyLinkedAttachments) = false)
    (hex : findFile st (getFilePathWithRenamedBaseName p (fingerprint f.content)) = some g)
    (hsame : fingerprint g.content = fingerprint f.content)
    (hmerge : cfg.mergeTheSameAttachments = true) :
    (ok.deleteFails p = false →
      renameAttachmentIfNeeded cfg ok st p
        = (true,
            updateNotes (deleteFile st p) (allNotesFor st p) p
              (getFilePathWithRenamedBaseName p (fingerprint f.content)),
            (getNotesThatHaveLinkToFileInCanvas st p).2
              ++ Event.deleted p :: rewriteEvents (allNotesFor st p) p
                  (getFilePathWithRenamedBaseName p (fingerprint f.content))))
    ∧ (ok.deleteFails p = true →
      renameAttachmentIfNeeded cfg ok st p
        = (false, st, (getNotesThatHaveLinkToFileInCanvas st p).2 ++ [Event.errDelete p])) := by
  have h3 : (baseNameOf p == fingerprint f.content) = false := beq_eq_false_iff_ne.mpr hnc
  have h6 : (fingerprint g.content != fingerprint f.content) = false := by
    rw [bne_eq_false_iff_eq]
    exact hsame
  exact ⟨fun h8 => rin_merge hgate hfind h3 hlink hex h6 hmerge h8,
    fun h8 => rin_delfail hgate hfind h3 hlink hex h6 hmerge h8⟩

/-- C2 witness: a concrete duplicate merge deletes then rewrites, and the
same merge with a failing delete is blocked with the vault unchanged. -/
theorem claim2_witness :
    renameAttachmentIfNeeded cfgMerge okNone stDup "a.png"
        = (true,
            updateNotes (deleteFile stDup "a.png") (allNotesFor stDup "a.png") "a.png"
              (getFilePathWithRenamedBaseName "a.png" (fingerprint [1])),
            (getNotesThatHaveLinkToFileInCanvas stDup "a.png").2
              ++ Event.deleted "a.png" :: rewriteEvents (allNotesFor stDup "a.png") "a.png"
                  (getFilePathWithRenamedBaseName "a.png" (fingerprint [1])))
    ∧ renameAttachmentIfNeeded cfgMerge okDelA stDup "a.png"
        = (false, stDup, (getNotesThatHaveLinkToFileInCanvas stDup "a.png").2
            ++ [Event.errDelete "a.png"]) :=
  ⟨(claim2_theorem cfgMerge okNone stDup "a.png" ⟨"a.png", [1]⟩
      ⟨getFilePathWithRenamedBaseName "a.png" (fingerprint [1]), [1]⟩
      (by decide) (by decide) (by decide) (by decide) (by decide) (by decide) rfl).1 rfl,
   (claim2_theorem cfgMerge okDelA stDup "a.png" ⟨"a.png", [1]⟩
      ⟨getFilePathWithRenamedBaseName "a.png" (fingerprint [1]), [1]⟩
      (by decide) (by decide) (by decide) (by decide) (by decide) (by decide) rfl).2 (by decide)⟩

/-- C8 counterexample: the storage delete failure is a Blocked outcome whose
log line (src/main.ts line 116) interpolates only the source path - the
destination path is absent from it - refuting "logged with both the source
path and the destination path" for this Blocked case. -/
theorem claim8_counterexample :
    renameAttachmentIfNeeded cfgMerge okDelA stDup "a.png"
        = (false, stDup, [Event.errDelete "a.png"])
    ∧ eventPaths (Event.errDelete "a.png") = ["a.png"]
    ∧ getFilePathWithRenamedBaseName "a.png" (fingerprint [1])
        ∉ eventPaths (Event.errDelete "a.png") := by
  refine ⟨by decide, rfl, by decide⟩

/-- C8 (amended): the name-clash, duplicate-merge-disallowed and storage
rename failure Blocked outcomes are each reported with a message
interpolating both the source and the destination path; the storage delete
failure is reported with the source path only; in all four cases the call
returns false with the state unchanged, and the batch loop then continues
with the next attachment from the same state. -/
theorem claim8_theorem (cfg : PluginSettings) (ok : StorageOracle) (st : Vault) (p : String)
    (f : VFile)
    (hgate : (checkFilePathIsIgnored cfg p || !checkFileTypeIsAllowed cfg p) = false)
    (hfind : findFile st p = some f)
    (hnc : baseNameOf p ≠ fingerprint f.content)
    (hlink : ((allNotesFor st p).isEmpty && cfg.renameOnlyLinkedAttachments) = false) :
    (∀ g, findFile st (getFilePathWithRenamedBaseName p (fingerprint f.content)) = some g →
      fingerprint g.content ≠ fingerprint f.content →
      renameAttachmentIfNeeded cfg ok st p
          = (false, st, (getNotesThatHaveLinkToFileInCanvas st p).2
              ++ [Event.warnClash p (getFilePathWithRenamedBaseName p (fingerprint f.content))])
        ∧ eventPaths (Event.warnClash p (getFilePathWithRenamedBaseName p (fingerprint f.content)))
          = [p, getFilePathWithRenamedBaseName p (fingerprint f.content)])
    ∧ (∀ g, findFile st (getFilePathWithRenamedBaseName p (fingerprint f.content)) = some g →
      fingerprint g.content = fingerprint f.content → cfg.mergeTheSameAttachments = false →
      renameAttachmentIfNeeded cfg ok st p
          = (false, st, (getNotesThatHaveLinkToFileInCanvas st p).2
              ++ [Event.warnDup p (getFilePathWithRenamedBaseName p (fingerprint f.content))])
        ∧ eventPaths (Event.warnDup p (getFilePathWithRenamedBaseName p (fingerprint f.content)))
          = [p, getFilePathWithRenamedBaseName p (fingerprint f.content)])
    ∧ (∀ g, findFile st (getFilePathWithRenamedBaseName p (fingerprint f.content)) = some g →
      fingerprint g.content = fingerprint f.content → cfg.mergeTheSameAttachments = true →
      ok.deleteFails p = true →
      renameAttachmentIfNeeded cfg ok st p
          = (false, st, (getNotesThatHaveLinkToFileInCanvas st p).2 ++ [Event.errDelete p])
        ∧ eventPaths (Event.errDelete p) = [p])
    ∧ (findFile st (getFilePathWithRenamedBaseName p (fingerprint f.content)) = none →
      ok.renameFails p = true →
      renameAttachmentIfNeeded cfg ok st p
          = (false, st, (getNotesThatHaveLinkToFileInCanvas st p).2
              ++ [Event.errRename p (getFilePathWithRenamedBaseName p (fingerprint f.content))])
        ∧ eventPaths (Event.errRename p (getFilePathWithRenamedBaseName p (fingerprint f.content)))
          = [p, getFilePathWithRenamedBaseName p (fingerprint f.content)])
    ∧ (∀ ps : List String, (renameAttachmentIfNeeded cfg ok st p).1 = false →
      (runPaths cfg ok st (p :: ps)).1 = (runPaths cfg ok st ps).1
        ∧ (runPaths cfg ok st (p :: ps)).2.1 = (runPaths cfg ok st ps).2.1) := by
  have h3 : (baseNameOf p == fingerprint f.content) = false := beq_eq_false_iff_ne.mpr hnc
  refine ⟨?_, ?_, ?_, ?_, ?_⟩
  · intro g hg hne
    have h6 : (fingerprint g.content != fingerprint f.content) = true := by
      rw [bne_iff_ne]
      exact hne
    exact ⟨@rin_clash cfg ok st p f g hgate hfind h3 hlink hg h6, rfl⟩
  · intro g hg heq hm
    have h6 : (fingerprint g.content != fingerprint f.content) = false := by
      rw [bne_eq_false_iff_eq]
      exact heq
    exact ⟨@rin_dup cfg ok st p f g hgate hfind h3 hlink hg h6 hm, rfl⟩
  · intro g hg heq hm h8
    have h6 : (fingerprint g.content != fingerprint f.content) = false := by
      rw [bne_eq_false_iff_eq]
      exact heq
    exact ⟨rin_delfail hgate hfind h3 hlink hg h6 hm h8, rfl⟩
  · intro h5 h9
    exact ⟨rin_renfail hgate hfind h3 hlink h5 h9, rfl⟩
  · intro ps hfail
    exact run_skip_false hfail

/-- C8 witness: the concrete delete-failure report carries the source path
only, and processing continues with the next attachment unaffected. -/
theorem claim8_witness :
    (renameAttachmentIfNeeded cfgMerge okDelA stDup "a.png"
        = (false, stDup, (getNotesThatHaveLinkToFileInCanvas stDup "a.png").2
            ++ [Event.errDelete "a.png"])
      ∧ eventPaths (Event.errDelete "a.png") = ["a.png"])
    ∧ (runPaths cfgMerge okDelA stDup ("a.png" :: [])).1 = (runPaths cfgMerge okDelA stDup []).1 :=
  ⟨(claim8_theorem cfgMerge okDelA stDup "a.png" ⟨"a.png", [1]⟩
      (by decide) (by decide) (by decide) (by decide)).2.2.1
      ⟨getFilePathWithRenamedBaseName "a.png" (fingerprint [1]), [1]⟩
      (by decide) (by decide) rfl (by decide),
   ((claim8_theorem cfgMerge okDelA stDup "a.png" ⟨"a.png", [1]⟩
      (by decide) (by decide) (by decide) (by decide)).2.2.2.2 [] (by decide)).1⟩

/-- C3 counterexample: the full pass is not idempotent on the code.  In the
first run "a.png" is clash-blocked by the stale-named file sitting at its
candidate canonical path, but that file is itself then renamed away to its
own canonical name; the second run therefore renames "a.png" and reports
count 1, not the zero-count notice. -/
theorem claim3_counterexample :
    (renameAllAttachments cfgPlain okNone stClash).1 = 1
    ∧ (renameAllAttachments cfgPlain okNone
        (renameAllAttachments cfgPlain okNone stClash).2.1).1 = 1 := by
  refine ⟨by decide, by decide⟩

/-- C3 (amended): running renameAllAttachments twice on the same corpus with
unique file paths, no storage failures and no intervening external changes
performs zero renames or merges on the second run, with the vault unchanged
and the "No files found that need to be renamed" notice reported - provided
the first run reported no name-clash (different content) collision, since a
clash-blocked attachment can become renameable once the blocking file is
itself renamed or merged away. -/
theorem claim3_theorem (cfg : PluginSettings) (ok : StorageOracle) (st : Vault)
    (hnd : (pathsOf st).Nodup)
    (hok : ∀ q, ok.renameFails q = false ∧ ok.deleteFails q = false)
    (hnoclash : ∀ a b, Event.warnClash a b ∉ (renameAllAttachments cfg ok st).2.2) :
    (renameAllAttachments cfg ok (renameAllAttachments cfg ok st).2.1).1 = 0
    ∧ (renameAllAttachments cfg ok (renameAllAttachments cfg ok st).2.1).2.1
        = (renameAllAttachments cfg ok st).2.1
    ∧ Event.noticeNone ∈ (renameAllAttachments cfg ok (renameAllAttachments cfg ok st).2.1).2.2 := by
  have hnc1 : ∀ a b, Event.warnClash a b ∉ (runPaths cfg ok st (pathsOf st)).2.2 := by
    intro a b hmem
    apply hnoclash a b
    show Event.warnClash a b ∈ (runPaths cfg ok st (pathsOf st)).2.2 ++ _
    exact List.mem_append.mpr (Or.inl hmem)
  obtain ⟨hnd1, hstab1⟩ := run1_post cfg ok hok (pathsOf st) st hnd hnd
    (fun q hq => hq)
    (fun f hf hnp => absurd (mem_pathsOf.mpr ⟨f, hf, rfl⟩) hnp)
    hnc1
  have h2 := run_stable cfg ok
    (pathsOf (runPaths cfg ok st (pathsOf st)).2.1)
    (runPaths cfg ok st (pathsOf st)).2.1
    hnd1 (fun q hq => hq) hstab1
  refine ⟨?_, ?_, ?_⟩
  · show (runPaths cfg ok (runPaths cfg ok st (pathsOf st)).2.1
        (pathsOf (runPaths cfg ok st (pathsOf st)).2.1)).1 = 0
    exact h2.1
  · show (runPaths cfg ok (runPaths cfg ok st (pathsOf st)).2.1
        (pathsOf (runPaths cfg ok st (pathsOf st)).2.1)).2.1
      = (runPaths cfg ok st (pathsOf st)).2.1
    exact h2.2
  · show Event.noticeNone ∈ (runPaths cfg ok (runPaths cfg ok st (pathsOf st)).2.1
          (pathsOf (runPaths cfg ok st (pathsOf st)).2.1)).2.2
        ++ [if (runPaths cfg ok (runPaths cfg ok st (pathsOf st)).2.1
              (pathsOf (runPaths cfg ok st (pathsOf st)).2.1)).1 == 0 then Event.noticeNone
            else Event.noticeRenamed (runPaths cfg ok (runPaths cfg ok st (pathsOf st)).2.1
              (pathsOf (runPaths cfg ok st (pathsOf st)).2.1)).1]
    rw [h2.1]
    exact List.mem_append.mpr (Or.inr (by simp))

/-- C3 witness: on a one-attachment vault the first run renames the file and
the second run is a reported no-op. -/
theorem claim3_witness :
    (renameAllAttachments cfgPlain okNone (renameAllAttachments cfgPlain okNone stOne).2.1).1 = 0
    ∧ (renameAllAttachments cfgPlain okNone
        (renameAllAttachments cfgPlain okNone stOne).2.1).2.1
      = (renameAllAttachments cfgPlain okNone stOne).2.1
    ∧ Event.noticeNone ∈ (renameAllAttachments cfgPlain okNone
        (renameAllAttachments cfgPlain okNone stOne).2.1).2.2 :=
  claim3_theorem cfgPlain okNone stOne (by decide) (fun _ => ⟨rfl, rfl⟩) (by
    intro a b hmem
    have hevs : (renameAllAttachments cfgPlain okNone stOne).2.2
        = [Event.renamed "a.png" (getFilePathWithRenamedBaseName "a.png" (fingerprint [1])),
           Event.noticeRenamed 1] := by decide
    rw [hevs] at hmem
    rcases List.mem_cons.mp hmem with h | h
    · exact Event.noConfusion h
    · rcases List.mem_cons.mp h with h' | h'
      · exact Event.noConfusion h'
      · cases h')

/-- C4: batch isolation.  A failed attachment does not affect the count or
the final state contributed by the rest of the batch (the remaining
attachments are processed from the unchanged state); files already renamed
to their canonical name are never renamed, deleted or modified by later
processing (no rollback); and the aggregate count always equals the number
of successful actions (rename or merge-delete events) in the run's log. -/
theorem claim4_theorem (cfg : PluginSettings) (ok : StorageOracle) (st : Vault) (p : String)
    (ps : List String)
    (hfail : (renameAttachmentIfNeeded cfg ok st p).1 = false) :
    (runPaths cfg ok st (p :: ps)).1 = (runPaths cfg ok st ps).1
    ∧ (runPaths cfg ok st (p :: ps)).2.1 = (runPaths cfg ok st ps).2.1
    ∧ (∀ f ∈ st.files, (pathsOf st).Nodup → canonicallyNamed f →
        ∀ qs : List String, f ∈ (runPaths cfg ok st qs).2.1.files)
    ∧ ∀ (qs : List String) (st0 : Vault),
        (runPaths cfg ok st0 qs).1 = (runPaths cfg ok st0 qs).2.2.countP isActionEvent := by
  refine ⟨(run_skip_false hfail).1, (run_skip_false hfail).2, ?_, ?_⟩
  · intro f hf hn hcan qs
    exact canonical_survives_run cfg ok qs st hn hf hcan
  · intro qs st0
    exact runPaths_count_eq_actions cfg ok qs st0

/-- C4 witness: a failing attachment ("b.txt" is filtered out) does not stop
"a.png" from being processed; the canonically named duplicate survives the
run; and the count equals the number of action events. -/
theorem claim4_witness :
    (runPaths cfgPlain okNone stDup ("b.txt" :: ["a.png"])).1
        = (runPaths cfgPlain okNone stDup ["a.png"]).1
    ∧ (runPaths cfgPlain okNone stDup ("b.txt" :: ["a.png"])).2.1
        = (runPaths cfgPlain okNone stDup ["a.png"]).2.1
    ∧ (⟨getFilePathWithRenamedBaseName "a.png" (fingerprint [1]), [1]⟩ : VFile)
        ∈ (runPaths cfgPlain okNone stDup ["a.png"]).2.1.files
    ∧ (runPaths cfgPlain okNone stDup ["a.png"]).1
        = (runPaths cfgPlain okNone stDup ["a.png"]).2.2.countP isActionEvent :=
  ⟨(claim4_theorem cfgPlain okNone stDup "b.txt" ["a.png"] (by decide)).1,
   (claim4_theorem cfgPlain okNone stDup "b.txt" ["a.png"] (by decide)).2.1,
   (claim4_theorem cfgPlain okNone stDup "b.txt" ["a.png"] (by decide)).2.2.1
      ⟨getFilePathWithRenamedBaseName "a.png" (fingerprint [1]), [1]⟩
      (by decide) (by decide) (by unfold canonicallyNamed; decide) ["a.png"],
   (claim4_theorem cfgPlain okNone stDup "b.txt" ["a.png"] (by decide)).2.2.2
      ["a.png"] stDup⟩
